import Mathlib

/-!
Shallow embedding of the Pathfinding Visualizer core (grid/graph structures,
the five step-wise search engines, the Prim maze generator and the cost-map
serializers), together with theorems settling the specification claims.

Positions and pixel coordinates are modelled as integers; Python `dict`/`set`
bookkeeping is modelled by functions into `Option`/membership lists; the
`heapq` priority queue is modelled as an entry list with a pop-minimum
operation (lexicographic on (priority, insertion counter), matching the tuple
comparison that `heapq` performs; counters are unique so the node component is
never compared).
-/

set_option maxRecDepth 10000

/-- Mirror of `definitions/states.py` `State`: the state tag of a node/edge. -/
inductive NodeState where
  | deactivated
  | activated
  | start
  | goal
  | visited
  | path
  | frontier
deriving DecidableEq, Repr

namespace NodeState

/-- Mirror of `State.is_deactivated`. -/
def is_deactivated : NodeState → Bool
  | deactivated => true
  | _ => false

/-- Mirror of `State.is_activated`. -/
def is_activated : NodeState → Bool
  | activated => true
  | _ => false

/-- Mirror of `State.is_start`. -/
def is_start : NodeState → Bool
  | start => true
  | _ => false

/-- Mirror of `State.is_goal`. -/
def is_goal : NodeState → Bool
  | goal => true
  | _ => false

/-- Mirror of `State.is_visited`. -/
def is_visited : NodeState → Bool
  | visited => true
  | _ => false

/-- Mirror of `State.is_path`. -/
def is_path : NodeState → Bool
  | path => true
  | _ => false

/-- Mirror of `State.is_frontier`. -/
def is_frontier : NodeState → Bool
  | frontier => true
  | _ => false

end NodeState

/-- Grid position `(row, col)`; Python indexes with ints. -/
abbrev Pos := ℤ × ℤ

/-- Mirror of `classes/grid.py` `Square`: the algorithmically relevant fields
(state and cost; the pixel/buffer fields `x`, `y`, `size`, `cost_surface` are
rendering-only and the `row`/`col` fields are the position key we index by). -/
structure Square where
  state : NodeState
  cost : ℤ
deriving DecidableEq, Repr

/-- Mirror of `classes/grid.py` `Grid`: `height`×`width` squares; the Python
list-of-lists is modelled as a function from positions (the engines and the
maze generator identify a square with its `(row, col)` index). -/
structure Grid where
  height : ℕ
  width : ℕ
  cells : Pos → Square

namespace Grid

/-- In-bounds check `0 <= row < height and 0 <= col < width`. -/
def inBounds (g : Grid) (p : Pos) : Prop :=
  0 ≤ p.1 ∧ p.1 < (g.height : ℤ) ∧ 0 ≤ p.2 ∧ p.2 < (g.width : ℤ)

instance (g : Grid) (p : Pos) : Decidable (g.inBounds p) := by
  unfold inBounds; infer_instance

/-- Mirror of `Grid.get` (the in-bounds read; out-of-bounds access raises in Python and
is excluded by hypotheses where it matters). -/
def get (g : Grid) (p : Pos) : Square := g.cells p

/-- Mirror of `Square.change_state` applied to the square at `p`. -/
def setCellState (g : Grid) (p : Pos) (s : NodeState) : Grid :=
  { g with cells := Function.update g.cells p { g.cells p with state := s } }

/-- Row-major listing of all in-bounds positions (the iteration order of the
nested `for row in self.grid: for square in row:` loops). -/
def positions (g : Grid) : List Pos :=
  (List.range g.height).flatMap fun r =>
    (List.range g.width).map fun (c : ℕ) => ((r : ℤ), (c : ℤ))

/-- Mirror of `Grid.get_start`: first square in row-major order whose state is START. -/
def get_start (g : Grid) : Option Pos :=
  g.positions.find? fun p => (g.cells p).state.is_start

/-- Mirror of `Grid.get_goal`: first square in row-major order whose state is GOAL. -/
def get_goal (g : Grid) : Option Pos :=
  g.positions.find? fun p => (g.cells p).state.is_goal

/-- Mirror of `Grid._clear_existing_start`. -/
def clear_existing_start (g : Grid) : Grid :=
  match g.get_start with
  | some p => g.setCellState p .activated
  | none => g

/-- Mirror of `Grid._clear_existing_goal`. -/
def clear_existing_goal (g : Grid) : Grid :=
  match g.get_goal with
  | some p => g.setCellState p .activated
  | none => g

/-- Mirror of `Grid.change_state` (the non-raising path; the bounds check that raises
`IndexError` in Python is a hypothesis of the theorems that use this). -/
def change_state (g : Grid) (row col : ℤ) (new_state : NodeState) : Grid :=
  match new_state with
  | .start => (g.clear_existing_start).setCellState (row, col) .start
  | .goal => (g.clear_existing_goal).setCellState (row, col) .goal
  | .activated =>
      if ¬(g.cells (row, col)).state.is_start then
        g.setCellState (row, col) .activated
      else g
  | s => g.setCellState (row, col) s

/-- The direction list `[(-1,0),(1,0),(0,-1),(0,1)]` of `Grid.get_neighbors`. -/
def neighborDirs : List (ℤ × ℤ) := [(-1, 0), (1, 0), (0, -1), (0, 1)]

/-- Mirror of `Grid.get_neighbors`: the 4-adjacent in-bounds positions, in the fixed
up/down/left/right order. -/
def get_neighbors (g : Grid) (p : Pos) : List Pos :=
  neighborDirs.filterMap fun d =>
    let n : Pos := (p.1 + d.1, p.2 + d.2)
    if g.inBounds n then some n else none

/-- Mirror of `Grid.get_moving_cost`: destination-square cost. -/
def get_moving_cost (g : Grid) (_node neighbor : Pos) : ℤ :=
  (g.cells neighbor).cost

end Grid

/-- Mirror of `classes/grid.py` `manhattan_heuristic`. -/
def manhattan_heuristic (node goal : Pos) : ℤ :=
  |node.1 - goal.1| + |node.2 - goal.2|

/-- Mirror of `classes/graph.py` `GraphNode`: pixel position and state.
Python compares nodes by object identity; identity is modelled by a numeric
node id (see `Graph`), so this record only holds the node's data. -/
structure GraphNode where
  x : ℤ
  y : ℤ
  state : NodeState
deriving DecidableEq, Repr

/-- Mirror of `classes/graph.py` `Edge`: endpoints are node ids. -/
structure Edge where
  node1 : ℕ
  node2 : ℕ
  cost : ℤ
  state : NodeState
deriving DecidableEq, Repr

/-- Mirror of `classes/graph.py` `Graph`.  `nodes` is the insertion-ordered
list of node ids (Python holds the objects themselves; object identity is
modelled by the id, with `nodeData` giving each id's fields and `nextId`
supplying fresh ids). -/
structure Graph where
  nodes : List ℕ
  nodeData : ℕ → GraphNode
  edges : List Edge
  nextId : ℕ

namespace Graph

/-- Mirror of `Graph.add_node`: appends a fresh node at `(x, y)` in state ACTIVATED. -/
def add_node (g : Graph) (x y : ℤ) : Graph × ℕ :=
  ({ g with
      nodes := g.nodes ++ [g.nextId]
      nodeData := Function.update g.nodeData g.nextId ⟨x, y, .activated⟩
      nextId := g.nextId + 1 },
   g.nextId)

/-- Mirror of `Graph.get_edge`: first edge joining the two ids, in either orientation. -/
def get_edge (g : Graph) (node1 node2 : ℕ) : Option Edge :=
  g.edges.find? fun e =>
    (e.node1 = node1 ∧ e.node2 = node2) ∨ (e.node1 = node2 ∧ e.node2 = node1)

/-- Mirror of `Graph.add_edge`: appends a cost-1 ACTIVATED edge unless the nodes
coincide, either is absent, or an edge between them already exists. -/
def add_edge (g : Graph) (node1 node2 : ℕ) : Graph :=
  if node1 ∈ g.nodes ∧ node2 ∈ g.nodes ∧ node1 ≠ node2 ∧
      g.get_edge node1 node2 = none then
    { g with edges := g.edges ++ [⟨node1, node2, 1, .activated⟩] }
  else g

/-- Mirror of `Graph.remove_node`: drops the node and every edge touching it. -/
def remove_node (g : Graph) (node : ℕ) : Graph :=
  if node ∈ g.nodes then
    { g with
        nodes := g.nodes.erase node
        edges := g.edges.filter fun e => e.node1 ≠ node ∧ e.node2 ≠ node }
  else g

/-- Mirror of `Graph.change_state` (the non-raising path: the node is in the graph). -/
def change_state (g : Graph) (node : ℕ) (new_state : NodeState) : Graph :=
  if node ∈ g.nodes then
    { g with nodeData :=
        Function.update g.nodeData node { g.nodeData node with state := new_state } }
  else g

/-- Mirror of `Graph.get_start`: first node in insertion order whose state is START. -/
def get_start (g : Graph) : Option ℕ :=
  g.nodes.find? fun n => (g.nodeData n).state.is_start

/-- Mirror of `Graph.get_goal`: first node in insertion order whose state is GOAL. -/
def get_goal (g : Graph) : Option ℕ :=
  g.nodes.find? fun n => (g.nodeData n).state.is_goal

/-- Mirror of `Graph.get_neighbors`: endpoints opposite `node`, in edge order. -/
def get_neighbors (g : Graph) (node : ℕ) : List ℕ :=
  g.edges.foldr
    (fun e acc =>
      if e.node1 = node then e.node2 :: acc
      else if e.node2 = node then e.node1 :: acc
      else acc) []

/-- Mirror of `Graph.get_cost` (the non-raising path: edge present; a missing edge
raises `ValueError` in Python). -/
def get_cost (g : Graph) (node1 node2 : ℕ) : ℤ :=
  match g.get_edge node1 node2 with
  | some e => e.cost
  | none => 0

/-- Replace the first edge joining the two ids (if any) by `f` of it. -/
def updateEdge (g : Graph) (node1 node2 : ℕ) (f : Edge → Edge) : Graph :=
  { g with
      edges := match g.get_edge node1 node2 with
        | some e =>
            match g.edges.indexOf? e with
            | some i => g.edges.set i (f e)
            | none => g.edges
        | none => g.edges }

/-- Mirror of `Graph.mark_edge_visited` (no-op when the edge is absent). -/
def mark_edge_visited (g : Graph) (node1 node2 : ℕ) : Graph :=
  g.updateEdge node1 node2 fun e => { e with state := .visited }

/-- Mirror of `Graph.mark_edge_path` (no-op when the edge is absent). -/
def mark_edge_path (g : Graph) (node1 node2 : ℕ) : Graph :=
  g.updateEdge node1 node2 fun e => { e with state := .path }

/-- Mirror of `Graph.mark_edge_frontier` (no-op when the edge is absent). -/
def mark_edge_frontier (g : Graph) (node1 node2 : ℕ) : Graph :=
  g.updateEdge node1 node2 fun e => { e with state := .frontier }

end Graph

/-- Mirror of `classes/graph.py` `euclidean_graph_heuristic` computes
`((dx)**2 + (dy)**2) ** 0.5` in floating point; the engines only compare
priorities built from it.  The claims that need a graph heuristic are settled
on configurations where its exact value is irrelevant, so the heuristic slot
of the engines is kept abstract (a callable, as in the source). -/
def euclidean_sq (node goal : GraphNode) : ℤ :=
  (node.x - goal.x) ^ 2 + (node.y - goal.y) ^ 2

/-! ### The search engines (`algorithms.py`)

The engines are duck-typed in Python: they receive the structure plus bound
methods/callables.  `Traversal` is the record of structure operations an
engine touches (`get_start`/`get_goal`, node state reads/writes, neighbor
enumeration, and the three `mark_edge_*` methods whose presence Python probes
with `hasattr` — modelled as `Option`, `none` for `Grid`, `some` for `Graph`).
The `get_neighbors`/`get_cost`/`heuristic` constructor arguments are passed
separately, as in the source. -/

structure Traversal (σ ν : Type) where
  getState : σ → ν → NodeState
  changeState : σ → ν → NodeState → σ
  get_start : σ → Option ν
  get_goal : σ → Option ν
  get_neighbors : σ → ν → List ν
  mark_edge_visited : Option (σ → ν → ν → σ)
  mark_edge_frontier : Option (σ → ν → ν → σ)
  mark_edge_path : Option (σ → ν → ν → σ)

/-- The `Traversal` view of a `Grid` (no `mark_edge_*` attributes). -/
def gridTraversal : Traversal Grid Pos where
  getState g p := (g.cells p).state
  changeState := Grid.setCellState
  get_start := Grid.get_start
  get_goal := Grid.get_goal
  get_neighbors := Grid.get_neighbors
  mark_edge_visited := none
  mark_edge_frontier := none
  mark_edge_path := none

/-- The `Traversal` view of a `Graph`. -/
def graphTraversal : Traversal Graph ℕ where
  getState g n := (g.nodeData n).state
  changeState := Graph.change_state
  get_start := Graph.get_start
  get_goal := Graph.get_goal
  get_neighbors := Graph.get_neighbors
  mark_edge_visited := some Graph.mark_edge_visited
  mark_edge_frontier := some Graph.mark_edge_frontier
  mark_edge_path := some Graph.mark_edge_path

/-- One `heapq` entry `(priority, counter, node)`. -/
abbrev HeapEntry (ν : Type) := ℤ × ℕ × ν

/-- Mirror of `heapq.heappop`: removes the entry with the lexicographically smallest
`(priority, counter)` (counters are unique in every reachable state, so the
node component is never compared, exactly as in the source). -/
def heappop {ν : Type} : List (HeapEntry ν) → Option (HeapEntry ν × List (HeapEntry ν))
  | [] => none
  | e :: es =>
    match heappop es with
    | none => some (e, [])
    | some (m, rest) =>
        if e.1 < m.1 ∨ (e.1 = m.1 ∧ e.2.1 ≤ m.2.1) then some (e, es)
        else some (m, e :: rest)

/-- Iterate an engine's `step` `n` times (the caller's per-frame call loop). -/
def stepIter {α : Type} (step : α → Bool × α) : ℕ → α → α
  | 0, s => s
  | n + 1, s => stepIter step n (step s).2

/-! #### BFS -/

/-- State of `BFSAlgorithm` (the mutable structure plus the base-class
bookkeeping).  `parents` models the Python dict as read by `dict.get`:
`none` stands for both "absent" and "stored `None`", the only distinction
the source never makes. -/
structure BFSState (σ ν : Type) where
  struct : σ
  queue : List ν
  visited : List ν
  parents : ν → Option ν
  path : List ν
  found : Bool

variable {σ ν : Type} [DecidableEq ν]

/-- Mirror of `BFSAlgorithm.reset`. -/
def BFSAlgorithm.reset (t : Traversal σ ν) (s : σ) : BFSState σ ν :=
  let base : BFSState σ ν := ⟨s, [], [], fun _ => none, [], false⟩
  match t.get_start s with
  | some start =>
      { base with
          queue := [start]
          visited := [start]
          parents := Function.update base.parents start none }
  | none => base

/-- The body of the neighbor loop in `BFSAlgorithm.step`. -/
def bfsVisitNeighbor (t : Traversal σ ν) (node : ν) (st : BFSState σ ν)
    (neighbor : ν) : BFSState σ ν :=
  if neighbor ∉ st.visited ∧
      ((t.getState st.struct neighbor).is_activated ∨
        (t.getState st.struct neighbor).is_goal) then
    let st1 := { st with
        queue := st.queue ++ [neighbor]
        visited := neighbor :: st.visited
        parents := Function.update st.parents neighbor (some node) }
    let st2 :=
      if (t.getState st1.struct neighbor).is_goal then { st1 with found := true }
      else if (t.getState st1.struct neighbor).is_activated then
        { st1 with struct := t.changeState st1.struct neighbor .frontier }
      else st1
    match t.mark_edge_frontier with
    | some f => { st2 with struct := f st2.struct node neighbor }
    | none => st2
  else st

/-- Mirror of `BFSAlgorithm.step`. -/
def BFSAlgorithm.step (t : Traversal σ ν) (nbrs : σ → ν → List ν)
    (st : BFSState σ ν) : Bool × BFSState σ ν :=
  if st.queue = [] ∨ st.found then (false, st)
  else
    match st.queue with
    | [] => (false, st)
    | node :: rest =>
      let st1 := { st with queue := rest }
      let st2 :=
        match st1.parents node, t.mark_edge_visited with
        | some parent, some f => { st1 with struct := f st1.struct parent node }
        | _, _ => st1
      let st3 :=
        if ¬(t.getState st2.struct node).is_start ∧
            ¬(t.getState st2.struct node).is_goal then
          { st2 with struct := t.changeState st2.struct node .visited }
        else st2
      let st4 := (nbrs st3.struct node).foldl (bfsVisitNeighbor t node) st3
      (true, st4)

/-! #### DFS -/

/-- State of `DFSAlgorithm`; the stack grows and pops at the right end, as the
Python list does. -/
structure DFSState (σ ν : Type) where
  struct : σ
  stack : List ν
  visited : List ν
  parents : ν → Option ν
  path : List ν
  found : Bool

/-- Mirror of `DFSAlgorithm.reset`. -/
def DFSAlgorithm.reset (t : Traversal σ ν) (s : σ) : DFSState σ ν :=
  let base : DFSState σ ν := ⟨s, [], [], fun _ => none, [], false⟩
  match t.get_start s with
  | some start =>
      { base with
          stack := [start]
          visited := [start]
          parents := Function.update base.parents start none }
  | none => base

/-- The body of the neighbor loop in `DFSAlgorithm.step`. -/
def dfsVisitNeighbor (t : Traversal σ ν) (node : ν) (st : DFSState σ ν)
    (neighbor : ν) : DFSState σ ν :=
  if neighbor ∉ st.visited ∧
      ((t.getState st.struct neighbor).is_activated ∨
        (t.getState st.struct neighbor).is_goal) then
    let st1 := { st with
        stack := st.stack ++ [neighbor]
        visited := neighbor :: st.visited
        parents := Function.update st.parents neighbor (some node) }
    let st2 :=
      if (t.getState st1.struct neighbor).is_goal then { st1 with found := true }
      else if (t.getState st1.struct neighbor).is_activated then
        { st1 with struct := t.changeState st1.struct neighbor .frontier }
      else st1
    match t.mark_edge_frontier with
    | some f => { st2 with struct := f st2.struct node neighbor }
    | none => st2
  else st

/-- Mirror of `DFSAlgorithm.step`.  Note the source quirk: the neighbor loop iterates
over `self.structure.get_neighbors(node)`, not the `get_neighbors` callable
stored by the constructor. -/
def DFSAlgorithm.step (t : Traversal σ ν) (st : DFSState σ ν) :
    Bool × DFSState σ ν :=
  if st.stack = [] ∨ st.found then (false, st)
  else
    match st.stack.getLast? with
    | none => (false, st)
    | some node =>
      let st1 := { st with stack := st.stack.dropLast }
      let st2 :=
        match st1.parents node, t.mark_edge_visited with
        | some parent, some f => { st1 with struct := f st1.struct parent node }
        | _, _ => st1
      let st3 :=
        if ¬(t.getState st2.struct node).is_start ∧
            ¬(t.getState st2.struct node).is_goal then
          { st2 with struct := t.changeState st2.struct node .visited }
        else st2
      let st4 := (t.get_neighbors st3.struct node).foldl (dfsVisitNeighbor t node) st3
      (true, st4)

/-! #### Dijkstra -/

/-- State of `DijkstraAlgorithm` (`costs` is the best-pushed-cost dict,
`counter` the `itertools.count()` tie-breaker). -/
structure DijkstraState (σ ν : Type) where
  struct : σ
  heap : List (HeapEntry ν)
  visited : List ν
  parents : ν → Option ν
  path : List ν
  found : Bool
  costs : ν → Option ℤ
  counter : ℕ

/-- Mirror of `DijkstraAlgorithm.reset`. -/
def DijkstraAlgorithm.reset (t : Traversal σ ν) (s : σ) : DijkstraState σ ν :=
  let base : DijkstraState σ ν := ⟨s, [], [], fun _ => none, [], false, fun _ => none, 0⟩
  match t.get_start s with
  | some start =>
      { base with
          heap := [(0, 0, start)]
          counter := 1
          visited := [start]
          parents := Function.update base.parents start none
          costs := Function.update base.costs start (some 0) }
  | none => base

/-- The body of the neighbor loop in `DijkstraAlgorithm.step`; `nodeCost` is
the popped priority `cost` used by `new_cost = cost + self.get_cost(...)`. -/
def dijkstraRelaxNeighbor (t : Traversal σ ν) (cost : σ → ν → ν → ℤ) (node : ν)
    (nodeCost : ℤ) (st : DijkstraState σ ν) (neighbor : ν) : DijkstraState σ ν :=
  if (t.getState st.struct neighbor).is_activated ∨
      (t.getState st.struct neighbor).is_goal then
    let new_cost := nodeCost + cost st.struct node neighbor
    let relax := match st.costs neighbor with
      | none => true
      | some c => decide (new_cost < c)
    if relax then
      let st1 := { st with
          costs := Function.update st.costs neighbor (some new_cost)
          heap := st.heap ++ [(new_cost, st.counter, neighbor)]
          counter := st.counter + 1
          parents := Function.update st.parents neighbor (some node) }
      let st2 :=
        if (t.getState st1.struct neighbor).is_goal then { st1 with found := true }
        else if (t.getState st1.struct neighbor).is_activated then
          { st1 with struct := t.changeState st1.struct neighbor .frontier }
        else st1
      match t.mark_edge_frontier with
      | some f => { st2 with struct := f st2.struct node neighbor }
      | none => st2
    else st
  else st

/-- Mirror of `DijkstraAlgorithm.step`. -/
def DijkstraAlgorithm.step (t : Traversal σ ν) (nbrs : σ → ν → List ν)
    (cost : σ → ν → ν → ℤ) (st : DijkstraState σ ν) : Bool × DijkstraState σ ν :=
  if st.heap = [] ∨ st.found then (false, st)
  else
    match heappop st.heap with
    | none => (false, st)
    | some ((c, _, node), rest) =>
      let st1 := { st with heap := rest }
      let st2 :=
        match st1.parents node, t.mark_edge_visited with
        | some parent, some f => { st1 with struct := f st1.struct parent node }
        | _, _ => st1
      let st3 :=
        if ¬(t.getState st2.struct node).is_start ∧
            ¬(t.getState st2.struct node).is_goal then
          { st2 with struct := t.changeState st2.struct node .visited }
        else st2
      let st4 := (nbrs st3.struct node).foldl (dijkstraRelaxNeighbor t cost node c) st3
      (true, st4)

/-! #### A* -/

/-- State of `AStarAlgorithm`; `goal` is the goal captured by `reset`. -/
structure AStarState (σ ν : Type) where
  struct : σ
  heap : List (HeapEntry ν)
  visited : List ν
  parents : ν → Option ν
  path : List ν
  found : Bool
  costs : ν → Option ℤ
  counter : ℕ
  goal : Option ν

/-- Mirror of `AStarAlgorithm.reset` (seeds the heap only when both START and GOAL
exist). -/
def AStarAlgorithm.reset (t : Traversal σ ν) (s : σ) : AStarState σ ν :=
  let base : AStarState σ ν :=
    ⟨s, [], [], fun _ => none, [], false, fun _ => none, 0, t.get_goal s⟩
  match t.get_start s, t.get_goal s with
  | some start, some _ =>
      { base with
          heap := [(0, 0, start)]
          counter := 1
          visited := [start]
          parents := Function.update base.parents start none
          costs := Function.update base.costs start (some 0) }
  | _, _ => base

/-- The body of the neighbor loop in `AStarAlgorithm.step`.  `nodeCost` is
`self.costs[node]`; `goalNode` is `self.goal` (always present when the heap is
nonempty in a reachable state, since `reset` only seeds the heap when a goal
exists). -/
def astarRelaxNeighbor (t : Traversal σ ν) (cost : σ → ν → ν → ℤ)
    (heuristic : ν → ν → ℤ) (node : ν) (nodeCost : ℤ) (goalNode : ν)
    (st : AStarState σ ν) (neighbor : ν) : AStarState σ ν :=
  if (t.getState st.struct neighbor).is_activated ∨
      (t.getState st.struct neighbor).is_goal then
    let new_cost := nodeCost + cost st.struct node neighbor
    let relax := match st.costs neighbor with
      | none => true
      | some c => decide (new_cost < c)
    if relax then
      let priority := new_cost + heuristic neighbor goalNode
      let st1 := { st with
          costs := Function.update st.costs neighbor (some new_cost)
          heap := st.heap ++ [(priority, st.counter, neighbor)]
          counter := st.counter + 1
          parents := Function.update st.parents neighbor (some node) }
      let st2 :=
        if (t.getState st1.struct neighbor).is_goal then { st1 with found := true }
        else if (t.getState st1.struct neighbor).is_activated then
          { st1 with struct := t.changeState st1.struct neighbor .frontier }
        else st1
      match t.mark_edge_frontier with
      | some f => { st2 with struct := f st2.struct node neighbor }
      | none => st2
    else st
  else st

/-- Mirror of `AStarAlgorithm.step`.  `self.costs[node]` is a dict access whose key is
present in every reachable state (every heap entry's node has been given a
cost); the model reads it with default `0`. -/
def AStarAlgorithm.step (t : Traversal σ ν) (nbrs : σ → ν → List ν)
    (cost : σ → ν → ν → ℤ) (heuristic : ν → ν → ℤ) (st : AStarState σ ν) :
    Bool × AStarState σ ν :=
  if st.heap = [] ∨ st.found then (false, st)
  else
    match heappop st.heap with
    | none => (false, st)
    | some ((_, _, node), rest) =>
      let st1 := { st with heap := rest }
      let st2 :=
        match st1.parents node, t.mark_edge_visited with
        | some parent, some f => { st1 with struct := f st1.struct parent node }
        | _, _ => st1
      let st3 :=
        if ¬(t.getState st2.struct node).is_start ∧
            ¬(t.getState st2.struct node).is_goal then
          { st2 with struct := t.changeState st2.struct node .visited }
        else st2
      let nodeCost := (st3.costs node).getD 0
      let goalNode := st3.goal.getD node
      let st4 :=
        (nbrs st3.struct node).foldl
          (astarRelaxNeighbor t cost heuristic node nodeCost goalNode) st3
      (true, st4)

/-! #### Greedy best-first -/

/-- State of `GreedyBestFirstAlgorithm`. -/
structure GreedyState (σ ν : Type) where
  struct : σ
  heap : List (HeapEntry ν)
  visited : List ν
  parents : ν → Option ν
  path : List ν
  found : Bool
  counter : ℕ
  goal : Option ν

/-- Mirror of `GreedyBestFirstAlgorithm.reset`. -/
def GreedyBestFirstAlgorithm.reset (t : Traversal σ ν) (heuristic : ν → ν → ℤ)
    (s : σ) : GreedyState σ ν :=
  let base : GreedyState σ ν :=
    ⟨s, [], [], fun _ => none, [], false, 0, t.get_goal s⟩
  match t.get_start s, t.get_goal s with
  | some start, some goal =>
      { base with
          heap := [(heuristic start goal, 0, start)]
          counter := 1
          visited := [start]
          parents := Function.update base.parents start none }
  | _, _ => base

/-- The body of the neighbor loop in `GreedyBestFirstAlgorithm.step`. -/
def greedyVisitNeighbor (t : Traversal σ ν) (heuristic : ν → ν → ℤ) (node : ν)
    (goalNode : ν) (st : GreedyState σ ν) (neighbor : ν) : GreedyState σ ν :=
  if neighbor ∉ st.visited ∧
      ((t.getState st.struct neighbor).is_activated ∨
        (t.getState st.struct neighbor).is_goal) then
    let st1 := { st with
        heap := st.heap ++ [(heuristic neighbor goalNode, st.counter, neighbor)]
        counter := st.counter + 1
        visited := neighbor :: st.visited
        parents := Function.update st.parents neighbor (some node) }
    let st2 :=
      if (t.getState st1.struct neighbor).is_goal then { st1 with found := true }
      else if (t.getState st1.struct neighbor).is_activated then
        { st1 with struct := t.changeState st1.struct neighbor .frontier }
      else st1
    match t.mark_edge_frontier with
    | some f => { st2 with struct := f st2.struct node neighbor }
    | none => st2
  else st

/-- Mirror of `GreedyBestFirstAlgorithm.step`. -/
def GreedyBestFirstAlgorithm.step (t : Traversal σ ν) (nbrs : σ → ν → List ν)
    (heuristic : ν → ν → ℤ) (st : GreedyState σ ν) : Bool × GreedyState σ ν :=
  if st.heap = [] ∨ st.found then (false, st)
  else
    match heappop st.heap with
    | none => (false, st)
    | some ((_, _, node), rest) =>
      let st1 := { st with heap := rest }
      let st2 :=
        match st1.parents node, t.mark_edge_visited with
        | some parent, some f => { st1 with struct := f st1.struct parent node }
        | _, _ => st1
      let st3 :=
        if ¬(t.getState st2.struct node).is_start ∧
            ¬(t.getState st2.struct node).is_goal then
          { st2 with struct := t.changeState st2.struct node .visited }
        else st2
      let goalNode := st3.goal.getD node
      let st4 :=
        (nbrs st3.struct node).foldl (greedyVisitNeighbor t heuristic node goalNode) st3
      (true, st4)

/-! #### `Algorithm.highlight_path` -/

/-- The slice of engine state that `Algorithm.highlight_path` touches: the
structure, the (read-only) parents dict, and the `path` list it appends to. -/
structure WalkState (σ ν : Type) where
  struct : σ
  parents : ν → Option ν
  path : List ν

/-- The `while node is not None` loop of `highlight_path`.  The Python loop
has no builtin bound; `fuel` dominates the walk length (claim C9 shows the
parent chains of all reachable engine states are finite). -/
def highlightLoop (t : Traversal σ ν) : ℕ → ν → WalkState σ ν → WalkState σ ν
  | 0, _, st => st
  | fuel + 1, node, st =>
    let parent := st.parents node
    let st1 :=
      if ¬(t.getState st.struct node).is_start ∧
          ¬(t.getState st.struct node).is_goal then
        { st with struct := t.changeState st.struct node .path }
      else st
    let st2 :=
      match parent, t.mark_edge_path with
      | some p, some f => { st1 with struct := f st1.struct node p }
      | _, _ => st1
    let st3 := { st2 with path := st2.path ++ [node] }
    match parent with
    | none => st3
    | some p => highlightLoop t fuel p st3

/-- Mirror of `Algorithm.highlight_path`. -/
def Algorithm.highlight_path (t : Traversal σ ν) (fuel : ℕ)
    (st : WalkState σ ν) : WalkState σ ν :=
  match t.get_goal st.struct with
  | none => st
  | some goal => highlightLoop t fuel goal st

/-- Follow `parents.get` `k` times from `n` (`none` once the walk has hit a
node with no parent entry). -/
def parentDescend (parents : ν → Option ν) : ℕ → ν → Option ν
  | 0, n => some n
  | k + 1, n =>
    match parents n with
    | none => none
    | some m => parentDescend parents k m

/-! ### The maze generator (`generate_maze_prim`)

Randomness is made explicit: the seed cell produced by
`random.randrange(0, dim, 2)` becomes two parameters (constrained to be even
and in range exactly as `randrange` guarantees), and each
`random.randrange(len(walls))` draw becomes `choice tick % walls.length` for
an arbitrary stream `choice : ℕ → ℕ`, which ranges over exactly the in-range
indices as `choice` varies.  The unbounded `while walls:` loop runs on fuel
`5 * deactCount + |walls| + 1`, an upper bound on its iteration count: each
carve removes one candidate, activates the far (deactivated) cell and appends
at most four candidates, and each non-carving iteration removes a candidate. -/

/-- The maze direction list `[(-2,0),(2,0),(0,-2),(0,2)]`. -/
def mazeDirs : List (ℤ × ℤ) := [(-2, 0), (2, 0), (0, -2), (0, 2)]

/-- The initial candidate walls around the seed (lines 342-345). -/
def initWalls (g : Grid) (start : Pos) : List (Pos × Pos) :=
  mazeDirs.filterMap fun d =>
    let n : Pos := (start.1 + d.1, start.2 + d.2)
    if g.inBounds n then some ((start.1 + d.1 / 2, start.2 + d.2 / 2), n) else none

/-- The candidate walls pushed after carving to `n` (lines 360-364; unlike the
initial push these also require the far cell to be deactivated). -/
def nextWalls (g : Grid) (n : Pos) : List (Pos × Pos) :=
  mazeDirs.filterMap fun d =>
    let nn : Pos := (n.1 + d.1, n.2 + d.2)
    if g.inBounds nn ∧ (g.cells nn).state.is_deactivated then
      some ((n.1 + d.1 / 2, n.2 + d.2 / 2), nn)
    else none

/-- Number of deactivated in-bounds cells (the fuel measure's main part). -/
def deactCount (g : Grid) : ℕ :=
  g.positions.countP fun p => (g.cells p).state.is_deactivated

/-- The `while walls:` loop of `generate_maze_prim`. -/
def mazeLoop (choice : ℕ → ℕ) : ℕ → ℕ → Grid → List (Pos × Pos) → Grid
  | 0, _, g, _ => g
  | _ + 1, _, g, [] => g
  | fuel + 1, tick, g, walls@(_ :: _) =>
    let idx := choice tick % walls.length
    let (w, n) := walls.getD idx ((0, 0), (0, 0))
    let rest := walls.eraseIdx idx
    if g.inBounds n then
      if (g.cells n).state.is_deactivated then
        let g1 := (g.setCellState w .activated).setCellState n .activated
        mazeLoop choice fuel (tick + 1) g1 (rest ++ nextWalls g1 n)
      else mazeLoop choice fuel (tick + 1) g rest
    else mazeLoop choice fuel (tick + 1) g rest

/-- Mirror of `generate_maze_prim`: deactivate everything, activate the seed, seed the
wall list, and run the carving loop. -/
def generate_maze_prim (g0 : Grid) (start_row start_col : ℤ) (choice : ℕ → ℕ) :
    Grid :=
  let gInit := g0.positions.foldl (fun g p => g.setCellState p .deactivated) g0
  let seed : Pos := (start_row, start_col)
  let gSeed := gInit.setCellState seed .activated
  let walls := initWalls gSeed seed
  mazeLoop choice (5 * deactCount gSeed + walls.length + 1) 0 gSeed walls

/-! ### Cost-map serialization (`utils/writers.py`, `utils/loaders.py`)

File contents are modelled as `List Char`.  `write_costs_to_file` produces the
written content; `load_grid_costs` consumes it through the same pipeline as
the Python source: iterate lines, `strip()`, `split()`, `int(...)` each token.
Python's line iteration yields each line with its trailing newline, which the
immediate `strip()` discards; the model's `pyLines` therefore yields the line
contents without the newline. -/

/-- The whitespace characters relevant to `str.strip`/`str.split` here. -/
def isPySpace (c : Char) : Bool :=
  c = ' ' || c = '\n' || c = '\t' || c = '\r'

/-- Python file-line iteration (on the newline-free line contents). -/
def pyLinesAux : List Char → List Char → List (List Char)
  | [], acc => if acc = [] then [] else [acc.reverse]
  | c :: cs, acc =>
    if c = '\n' then acc.reverse :: pyLinesAux cs []
    else pyLinesAux cs (c :: acc)

/-- Lines of a file's content. -/
def pyLines (content : List Char) : List (List Char) := pyLinesAux content []

/-- Mirror of `str.strip()`. -/
def pyStrip (l : List Char) : List Char :=
  ((l.dropWhile isPySpace).reverse.dropWhile isPySpace).reverse

/-- Mirror of `str.split()` (split on whitespace runs, no empty tokens). -/
def pySplitAux : List Char → List Char → List (List Char)
  | [], acc => if acc = [] then [] else [acc.reverse]
  | c :: cs, acc =>
    if isPySpace c then
      if acc = [] then pySplitAux cs [] else acc.reverse :: pySplitAux cs []
    else pySplitAux cs (c :: acc)

/-- Mirror of `str.split()` on a whole string. -/
def pySplit (l : List Char) : List (List Char) := pySplitAux l []

/-- Decimal digits of a natural, most significant first (Python `str` of a
non-negative int).  The recursion runs on a fuel argument that dominates the
digit count, keeping the definition structural (hence kernel-computable). -/
def natToCharsAux : ℕ → ℕ → List Char
  | 0, _ => []
  | fuel + 1, n =>
    if n < 10 then [Char.ofNat (48 + n)]
    else natToCharsAux fuel (n / 10) ++ [Char.ofNat (48 + n % 10)]

/-- Decimal digit string of a natural (`n + 1` fuel always suffices). -/
def natToChars (n : ℕ) : List Char := natToCharsAux (n + 1) n

/-- Python `str(val)` for an int. -/
def intToChars (v : ℤ) : List Char :=
  if v < 0 then '-' :: natToChars (-v).toNat else natToChars v.toNat

/-- Digit-string value (the core of Python `int(...)`). -/
def parseDigits (l : List Char) : ℕ :=
  l.foldl (fun a c => 10 * a + (c.toNat - 48)) 0

/-- Python `int(token)` for the tokens this format produces. -/
def pyInt : List Char → ℤ
  | '-' :: ds => -(parseDigits ds : ℤ)
  | ds => (parseDigits ds : ℤ)

/-- Mirror of `" ".join(...)`. -/
def joinSep (sep : List Char) : List (List Char) → List Char
  | [] => []
  | [x] => x
  | x :: xs => x ++ sep ++ joinSep sep xs

/-- Mirror of `write_costs_to_file`: the content written to the file (one
space-separated row per line, each line newline-terminated). -/
def write_costs_to_file (costs : List (List ℤ)) : List Char :=
  (costs.map fun row => joinSep [' '] (row.map intToChars) ++ ['\n']).flatten

/-- Mirror of `load_grid_costs` applied to file content. -/
def load_grid_costs (content : List Char) : List (List ℤ) :=
  (pyLines content).map fun line => (pySplit (pyStrip line)).map pyInt

/-! ### Helpers for stating the claims -/

/-- The parent chain from `n` (inclusive), following `parents.get` until a
node with no parent entry; `fuel` bounds the walk. -/
def parentChain {ν : Type} (parents : ν → Option ν) : ℕ → ν → List ν
  | 0, n => [n]
  | k + 1, n =>
    match parents n with
    | none => [n]
    | some m => n :: parentChain parents k m

/-- Total movement cost along a goal-to-start chain: each hop from a node to
its parent `b` traverses the edge `b → node`, whose grid cost is
`get_moving_cost b node`. -/
def chainCost (g : Grid) : List Pos → ℤ
  | [] => 0
  | [_] => 0
  | a :: b :: rest => g.get_moving_cost b a + chainCost g (b :: rest)

/-- Build a grid from row-major `(state, cost)` data (used for the concrete
structures the claims are tested on). -/
def Grid.ofRows (rows : List (List Square)) : Grid :=
  { height := rows.length
    width := (rows.headD []).length
    cells := fun p => (rows.getD p.1.toNat []).getD p.2.toNat ⟨.activated, 1⟩ }

/-- Shorthand for a concrete square. -/
def mkSq (s : NodeState) (c : ℤ) : Square := ⟨s, c⟩

/-- An ACTIVATED cost-1 square (the default construction). -/
def sqA : Square := ⟨.activated, 1⟩

/-- The spec's benchmark: 5×5 fully-activated unit-cost grid, START at
`(0,0)`, GOAL at `(4,4)`. -/
def g5 : Grid := Grid.ofRows [
  [mkSq .start 1, sqA, sqA, sqA, sqA],
  [sqA, sqA, sqA, sqA, sqA],
  [sqA, sqA, sqA, sqA, sqA],
  [sqA, sqA, sqA, sqA, sqA],
  [sqA, sqA, sqA, sqA, mkSq .goal 1]]

/-- A 1×2 grid with a START and no GOAL. -/
def gStartOnly : Grid := Grid.ofRows [[mkSq .start 1, sqA]]

/-- A 1×2 grid with neither START nor GOAL. -/
def gNoStart : Grid := Grid.ofRows [[sqA, sqA]]

/-- The 3×3 weighted grid refuting claim C3: the zero-cost detour through the
bottom row makes the Manhattan heuristic overestimate, so A* commits to the
direct cost-2 route while Dijkstra finds the cost-0 one. -/
def gC3 : Grid := Grid.ofRows [
  [mkSq .start 1, mkSq .activated 2, mkSq .goal 0],
  [mkSq .activated 0, mkSq .activated 9, mkSq .activated 0],
  [mkSq .activated 0, mkSq .activated 0, mkSq .activated 0]]

/-- A 1×2 grid whose only GOAL sits at `(0,0)`. -/
def gC10 : Grid := Grid.ofRows [[mkSq .goal 1, sqA]]

/-- A two-node graph whose first node is START (node ids 0 and 1). -/
def graphC2 : Graph :=
  ⟨[0, 1],
   fun n => if n = 0 then ⟨0, 0, .start⟩ else ⟨100, 0, .activated⟩,
   [], 2⟩

/-- A two-node edgeless graph with both nodes ACTIVATED. -/
def graphC7 : Graph :=
  ⟨[0, 1], fun n => if n = 0 then ⟨0, 0, .activated⟩ else ⟨100, 0, .activated⟩,
   [], 2⟩

/-- Number of START squares of a grid. -/
def startCount (g : Grid) : ℕ :=
  g.positions.countP fun p => (g.cells p).state.is_start

/-- Number of GOAL squares of a grid. -/
def goalCount (g : Grid) : ℕ :=
  g.positions.countP fun p => (g.cells p).state.is_goal

/-- Number of START nodes of a graph. -/
def graphStartCount (gr : Graph) : ℕ :=
  gr.nodes.countP fun n => (gr.nodeData n).state.is_start

/-- Number of edges joining two node ids, in either orientation (the
predicate is the one `Graph.get_edge` searches with). -/
def edgesBetween (gr : Graph) (node1 node2 : ℕ) : ℕ :=
  gr.edges.countP fun e =>
    decide ((e.node1 = node1 ∧ e.node2 = node2) ∨ (e.node1 = node2 ∧ e.node2 = node1))

/-! ### Notions for the maze claim (C4) -/

/-- Grid 4-adjacency. -/
def adjacent (p q : Pos) : Prop := |p.1 - q.1| + |p.2 - q.2| = 1

instance (p q : Pos) : Decidable (adjacent p q) := by unfold adjacent; infer_instance

/-- The in-bounds cell `p` is in state ACTIVATED. -/
def actAt (g : Grid) (p : Pos) : Prop :=
  g.inBounds p ∧ (g.cells p).state = .activated

instance (g : Grid) (p : Pos) : Decidable (actAt g p) := by
  unfold actAt; infer_instance

/-- Reachability from `src` through ACTIVATED cells by 4-adjacent steps. -/
inductive ActReach (g : Grid) (src : Pos) : Pos → Prop where
  | refl : actAt g src → ActReach g src src
  | tail {p q : Pos} : ActReach g src p → adjacent p q → actAt g q →
      ActReach g src q

/-- A cycle in the subgraph induced by the ACTIVATED cells: at least three
pairwise-distinct activated cells, cyclically consecutive ones adjacent. -/
def IsCycle (g : Grid) (c : List Pos) : Prop :=
  3 ≤ c.length ∧ c.Nodup ∧ (∀ p ∈ c, actAt g p) ∧
  ∀ i, i < c.length →
    adjacent (c.getD i (0, 0)) (c.getD ((i + 1) % c.length) (0, 0))

/-- Both coordinate offsets from the seed are even (a "room" of the maze:
the parity class the seed and every carve target live in). -/
def roomPar (s p : Pos) : Prop := (p.1 - s.1) % 2 = 0 ∧ (p.2 - s.2) % 2 = 0

/-- Both coordinate offsets from the seed are odd (such cells are never
touched by the maze generator). -/
def oddOdd (s p : Pos) : Prop := (p.1 - s.1) % 2 = 1 ∧ (p.2 - s.2) % 2 = 1

/-- Invariant of the grid during maze generation, seeded at `s`: a parent
certificate rooted at `s` whose edges cover every adjacency between
ACTIVATED cells (so the activated subgraph is a tree rooted at `s`), plus
the parity facts that keep carving from closing a cycle: no odd-odd cell is
ever activated, and an activated off-room cell (a passage midpoint) has both
of its room neighbors activated. -/
def GridInv (s : Pos) (g : Grid) : Prop :=
  ∃ (par : Pos → Option Pos) (rank : Pos → ℕ),
    actAt g s ∧
    (∀ p, actAt g p → ¬oddOdd s p) ∧
    (∀ p q, actAt g p → ¬roomPar s p → adjacent p q → roomPar s q →
      actAt g q) ∧
    par s = none ∧
    (∀ p, actAt g p → p ≠ s → ∃ q, par p = some q ∧ actAt g q ∧
      adjacent p q ∧ rank q < rank p) ∧
    (∀ p q, actAt g p → actAt g q → adjacent p q →
      par p = some q ∨ par q = some p)

/-- Invariant of the candidate-wall list during maze generation: every entry
`(w, n)` arose from an activated room cell `src` and a direction `d` as
`w = src + d/2`, `n = src + d`. -/
def WallsOk (s : Pos) (g : Grid) (walls : List (Pos × Pos)) : Prop :=
  ∀ wn ∈ walls, ∃ (src : Pos) (d : ℤ × ℤ), d ∈ mazeDirs ∧
    wn.1 = (src.1 + d.1 / 2, src.2 + d.2 / 2) ∧
    wn.2 = (src.1 + d.1, src.2 + d.2) ∧
    actAt g src ∧ roomPar s src

/-! ### Notions for the parents-acyclicity claim (C9) and `highlight_path` (C6) -/

/-- Existence of a rank function strictly decreasing along parent pointers
(the acyclicity certificate every reachable engine state admits). -/
def RanksOk {ν : Type} (parents : ν → Option ν) : Prop :=
  ∃ rank : ν → ℕ, ∀ n m, parents n = some m → rank m < rank n

/-- Structure-interface laws that grids (and well-formed graphs) satisfy:
node-state writes behave as pointwise updates, the optional edge-marking
methods leave node states alone, and `get_start` returns a START-state node. -/
structure TravLaws {σ ν : Type} [DecidableEq ν] (t : Traversal σ ν) : Prop where
  getState_changeState : ∀ s n st m,
    t.getState (t.changeState s n st) m = if m = n then st else t.getState s m
  mark_visited_state : ∀ f, t.mark_edge_visited = some f →
    ∀ s a b n, t.getState (f s a b) n = t.getState s n
  mark_frontier_state : ∀ f, t.mark_edge_frontier = some f →
    ∀ s a b n, t.getState (f s a b) n = t.getState s n
  mark_path_state : ∀ f, t.mark_edge_path = some f →
    ∀ s a b n, t.getState (f s a b) n = t.getState s n
  start_is_start : ∀ s n, t.get_start s = some n →
    (t.getState s n).is_start = true

/-- Parents-map invariant of the visit-once engines (BFS; DFS and Greedy have
the same shape): parent targets are visited, frontier members are visited,
and a decreasing rank exists. -/
structure BfsParentsInv {σ ν : Type} (st : BFSState σ ν) : Prop where
  ranks : RanksOk st.parents
  target_vis : ∀ n m, st.parents n = some m → m ∈ st.visited
  frontier_vis : ∀ n ∈ st.queue, n ∈ st.visited

/-- Mirror of `BfsParentsInv` for `DFSAlgorithm`. -/
structure DfsParentsInv {σ ν : Type} (st : DFSState σ ν) : Prop where
  ranks : RanksOk st.parents
  target_vis : ∀ n m, st.parents n = some m → m ∈ st.visited
  frontier_vis : ∀ n ∈ st.stack, n ∈ st.visited

/-- Mirror of `BfsParentsInv` for `GreedyBestFirstAlgorithm`. -/
structure GreedyParentsInv {σ ν : Type} (st : GreedyState σ ν) : Prop where
  ranks : RanksOk st.parents
  target_vis : ∀ n m, st.parents n = some m → m ∈ st.visited
  frontier_vis : ∀ e ∈ st.heap, e.2.2 ∈ st.visited

/-- Parents-map invariant of `DijkstraAlgorithm`: parent targets are never
relaxable (their state is neither ACTIVATED nor GOAL, so their parent pointer
can no longer be reassigned), any costed GOAL-state node implies `found`
(hence the goal is never expanded), every heap entry has a cost, and a
decreasing rank exists. -/
structure DijkParentsInv {σ ν : Type} (t : Traversal σ ν)
    (st : DijkstraState σ ν) : Prop where
  ranks : RanksOk st.parents
  target_blocked : ∀ n m, st.parents n = some m →
    (t.getState st.struct m).is_activated = false ∧
    (t.getState st.struct m).is_goal = false
  goal_found : ∀ n, (t.getState st.struct n).is_goal = true →
    st.costs n ≠ none → st.found = true
  heap_costs : ∀ e ∈ st.heap, st.costs e.2.2 ≠ none

/-- Mirror of `DijkParentsInv` for `AStarAlgorithm`. -/
structure AStarParentsInv {σ ν : Type} (t : Traversal σ ν)
    (st : AStarState σ ν) : Prop where
  ranks : RanksOk st.parents
  target_blocked : ∀ n m, st.parents n = some m →
    (t.getState st.struct m).is_activated = false ∧
    (t.getState st.struct m).is_goal = false
  goal_found : ∀ n, (t.getState st.struct n).is_goal = true →
    st.costs n ≠ none → st.found = true
  heap_costs : ∀ e ∈ st.heap, st.costs e.2.2 ≠ none

/-- The walk `highlight_path` performs: `c` lists the nodes from `n` along
parent pointers down to the first node with no parent entry. -/
inductive ParentPath {ν : Type} (parents : ν → Option ν) : ν → List ν → Prop where
  | last (n : ν) (h : parents n = none) : ParentPath parents n [n]
  | cons (n m : ν) (c : List ν) (h : parents n = some m)
      (tail : ParentPath parents m c) : ParentPath parents n (n :: c)

/-- The parents map of the C6 witness: chain `(0,2) → (0,1) → (0,0)`. -/
def parC6 : Pos → Option Pos :=
  fun p => if p = (0, 2) then some (0, 1) else if p = (0, 1) then some (0, 0) else none

/-- The 1×3 grid of the C6 witness: START, ACTIVATED, GOAL. -/
def gC6 : Grid := Grid.ofRows [[mkSq .start 1, sqA, mkSq .goal 1]]

/-- Marker: run definitions used by the concrete claim instances. -/
def bfsRun5 (n : ℕ) : BFSState Grid Pos :=
  stepIter (BFSAlgorithm.step gridTraversal Grid.get_neighbors) n
    (BFSAlgorithm.reset gridTraversal g5)

/-- Dijkstra run on the C3 grid. -/
def dijRunC3 (n : ℕ) : DijkstraState Grid Pos :=
  stepIter (DijkstraAlgorithm.step gridTraversal Grid.get_neighbors Grid.get_moving_cost)
    n (DijkstraAlgorithm.reset gridTraversal gC3)

/-- A* run on the C3 grid (Manhattan heuristic, as on grids). -/
def astRunC3 (n : ℕ) : AStarState Grid Pos :=
  stepIter (AStarAlgorithm.step gridTraversal Grid.get_neighbors Grid.get_moving_cost
    manhattan_heuristic) n (AStarAlgorithm.reset gridTraversal gC3)

/-- Dijkstra run on the 5×5 benchmark grid. -/
def dijRun5 (n : ℕ) : DijkstraState Grid Pos :=
  stepIter (DijkstraAlgorithm.step gridTraversal Grid.get_neighbors Grid.get_moving_cost)
    n (DijkstraAlgorithm.reset gridTraversal g5)

/-- A* run on the 5×5 benchmark grid. -/
def astRun5 (n : ℕ) : AStarState Grid Pos :=
  stepIter (AStarAlgorithm.step gridTraversal Grid.get_neighbors Grid.get_moving_cost
    manhattan_heuristic) n (AStarAlgorithm.reset gridTraversal g5)

/-- A state on which `step` is the identity returning `false` stays fixed
under any number of iterations. -/
theorem stepIter_fixed {α : Type} {step : α → Bool × α} {s : α}
    (h : step s = (false, s)) : ∀ k, stepIter step k s = s := by
  intro k
  induction k with
  | zero => rfl
  | succ k ih => rw [stepIter, h]; exact ih

/-- C1, counterexample: for the BFS engine bound to a 1×2 grid that has a
START but no GOAL, `reset()` does not leave the frontier empty, and the first
`step()` returns `true` and mutates a node state — refuting the claim that a
missing GOAL alone yields the inert terminal state. -/
theorem C1_counterexample :
    gridTraversal.get_goal gStartOnly = none ∧
    (BFSAlgorithm.reset gridTraversal gStartOnly).queue ≠ [] ∧
    (BFSAlgorithm.step gridTraversal Grid.get_neighbors
      (BFSAlgorithm.reset gridTraversal gStartOnly)).1 = true ∧
    ((BFSAlgorithm.step gridTraversal Grid.get_neighbors
      (BFSAlgorithm.reset gridTraversal gStartOnly)).2.struct.cells (0, 1)).state ≠
      (gStartOnly.cells (0, 1)).state := by
  decide

/-- C1 (amended): a missing START gives every variant the inert state (empty
frontier, every later `step()` returns `false` and changes nothing); for A*
and Greedy best-first a missing GOAL also suffices, but for BFS, DFS and
Dijkstra it does not (see the counterexample). -/
theorem C1_amended {σ ν : Type} [DecidableEq ν] (t : Traversal σ ν)
    (nbrs : σ → ν → List ν) (cost : σ → ν → ν → ℤ) (heuristic : ν → ν → ℤ)
    (s : σ) :
    (t.get_start s = none →
      (BFSAlgorithm.reset t s).queue = [] ∧
      ∀ k, stepIter (BFSAlgorithm.step t nbrs) k (BFSAlgorithm.reset t s) =
          BFSAlgorithm.reset t s ∧
        (BFSAlgorithm.step t nbrs (BFSAlgorithm.reset t s)).1 = false) ∧
    (t.get_start s = none →
      (DFSAlgorithm.reset t s).stack = [] ∧
      ∀ k, stepIter (DFSAlgorithm.step t) k (DFSAlgorithm.reset t s) =
          DFSAlgorithm.reset t s ∧
        (DFSAlgorithm.step t (DFSAlgorithm.reset t s)).1 = false) ∧
    (t.get_start s = none →
      (DijkstraAlgorithm.reset t s).heap = [] ∧
      ∀ k, stepIter (DijkstraAlgorithm.step t nbrs cost) k
          (DijkstraAlgorithm.reset t s) = DijkstraAlgorithm.reset t s ∧
        (DijkstraAlgorithm.step t nbrs cost (DijkstraAlgorithm.reset t s)).1 = false) ∧
    (t.get_start s = none ∨ t.get_goal s = none →
      (AStarAlgorithm.reset t s).heap = [] ∧
      ∀ k, stepIter (AStarAlgorithm.step t nbrs cost heuristic) k
          (AStarAlgorithm.reset t s) = AStarAlgorithm.reset t s ∧
        (AStarAlgorithm.step t nbrs cost heuristic (AStarAlgorithm.reset t s)).1 =
          false) ∧
    (t.get_start s = none ∨ t.get_goal s = none →
      (GreedyBestFirstAlgorithm.reset t heuristic s).heap = [] ∧
      ∀ k, stepIter (GreedyBestFirstAlgorithm.step t nbrs heuristic) k
          (GreedyBestFirstAlgorithm.reset t heuristic s) =
          GreedyBestFirstAlgorithm.reset t heuristic s ∧
        (GreedyBestFirstAlgorithm.step t nbrs heuristic
          (GreedyBestFirstAlgorithm.reset t heuristic s)).1 = false) := by
  refine ⟨fun h => ?_, fun h => ?_, fun h => ?_, fun h => ?_, fun h => ?_⟩
  · have hr : BFSAlgorithm.reset t s = ⟨s, [], [], fun _ => none, [], false⟩ := by
      unfold BFSAlgorithm.reset; rw [h]
    have hstep : BFSAlgorithm.step t nbrs (BFSAlgorithm.reset t s) =
        (false, BFSAlgorithm.reset t s) := by
      rw [hr]; rfl
    exact ⟨by rw [hr], fun k => ⟨stepIter_fixed hstep k, by rw [hstep]⟩⟩
  · have hr : DFSAlgorithm.reset t s = ⟨s, [], [], fun _ => none, [], false⟩ := by
      unfold DFSAlgorithm.reset; rw [h]
    have hstep : DFSAlgorithm.step t (DFSAlgorithm.reset t s) =
        (false, DFSAlgorithm.reset t s) := by
      rw [hr]; rfl
    exact ⟨by rw [hr], fun k => ⟨stepIter_fixed hstep k, by rw [hstep]⟩⟩
  · have hr : DijkstraAlgorithm.reset t s =
        ⟨s, [], [], fun _ => none, [], false, fun _ => none, 0⟩ := by
      unfold DijkstraAlgorithm.reset; rw [h]
    have hstep : DijkstraAlgorithm.step t nbrs cost (DijkstraAlgorithm.reset t s) =
        (false, DijkstraAlgorithm.reset t s) := by
      rw [hr]; rfl
    exact ⟨by rw [hr], fun k => ⟨stepIter_fixed hstep k, by rw [hstep]⟩⟩
  · have hr : AStarAlgorithm.reset t s =
        ⟨s, [], [], fun _ => none, [], false, fun _ => none, 0, t.get_goal s⟩ := by
      unfold AStarAlgorithm.reset
      rcases h with h | h
      · rw [h]
      · rw [h]; rcases t.get_start s with _ | st <;> rfl
    have hstep : AStarAlgorithm.step t nbrs cost heuristic (AStarAlgorithm.reset t s) =
        (false, AStarAlgorithm.reset t s) := by
      rw [hr]; rfl
    exact ⟨by rw [hr], fun k => ⟨stepIter_fixed hstep k, by rw [hstep]⟩⟩
  · have hr : GreedyBestFirstAlgorithm.reset t heuristic s =
        ⟨s, [], [], fun _ => none, [], false, 0, t.get_goal s⟩ := by
      unfold GreedyBestFirstAlgorithm.reset
      rcases h with h | h
      · rw [h]
      · rw [h]; rcases t.get_start s with _ | st <;> rfl
    have hstep : GreedyBestFirstAlgorithm.step t nbrs heuristic
        (GreedyBestFirstAlgorithm.reset t heuristic s) =
        (false, GreedyBestFirstAlgorithm.reset t heuristic s) := by
      rw [hr]; rfl
    exact ⟨by rw [hr], fun k => ⟨stepIter_fixed hstep k, by rw [hstep]⟩⟩

/-- C1 witness: the amended theorem applied to a concrete grid with no START
(for BFS/DFS/Dijkstra) and to one with a START but no GOAL (for A*/Greedy). -/
theorem C1_amended_witness :
    (BFSAlgorithm.reset gridTraversal gNoStart).queue = [] ∧
    (DFSAlgorithm.reset gridTraversal gNoStart).stack = [] ∧
    (DijkstraAlgorithm.reset gridTraversal gNoStart).heap = [] ∧
    (AStarAlgorithm.reset gridTraversal gStartOnly).heap = [] ∧
    (GreedyBestFirstAlgorithm.reset gridTraversal manhattan_heuristic
      gStartOnly).heap = [] :=
  ⟨((C1_amended gridTraversal Grid.get_neighbors Grid.get_moving_cost
      manhattan_heuristic gNoStart).1 (by decide)).1,
   (((C1_amended gridTraversal Grid.get_neighbors Grid.get_moving_cost
      manhattan_heuristic gNoStart).2.1) (by decide)).1,
   (((C1_amended gridTraversal Grid.get_neighbors Grid.get_moving_cost
      manhattan_heuristic gNoStart).2.2.1) (by decide)).1,
   (((C1_amended gridTraversal Grid.get_neighbors Grid.get_moving_cost
      manhattan_heuristic gStartOnly).2.2.2.1) (Or.inr (by decide))).1,
   (((C1_amended gridTraversal Grid.get_neighbors Grid.get_moving_cost
      manhattan_heuristic gStartOnly).2.2.2.2) (Or.inr (by decide))).1⟩

/-- C5: on the 5×5 fully-activated unit-cost grid with START `(0,0)` and GOAL
`(4,4)`, BFS reports `found` by step 23 (hence within 25 steps; the flag still
holds at 25, where `step` now returns `false`), and the parent chain walked
from the GOAL has 9 nodes — 8 edges, the Manhattan distance — ending at the
START. -/
theorem C5_bfs_benchmark :
    (bfsRun5 23).found = true ∧ (bfsRun5 25).found = true ∧
    (BFSAlgorithm.step gridTraversal Grid.get_neighbors (bfsRun5 25)).1 = false ∧
    (parentChain (bfsRun5 25).parents 25 (4, 4)).length = 8 + 1 ∧
    (parentChain (bfsRun5 25).parents 25 (4, 4)).getLast? = some (0, 0) := by
  decide

/-- C3, counterexample: on the 3×3 grid `gC3` (a zero-cost detour along the
bottom row, an expensive direct route on the top row) both engines run to
completion, but Dijkstra's reconstructed path has total movement cost 0 while
A* with the Manhattan heuristic — which overestimates across zero-cost
cells — commits to the cost-2 direct route: the two totals differ. -/
theorem C3_counterexample :
    (dijRunC3 10).found = true ∧ (astRunC3 10).found = true ∧
    (DijkstraAlgorithm.step gridTraversal Grid.get_neighbors Grid.get_moving_cost
      (dijRunC3 10)).1 = false ∧
    (AStarAlgorithm.step gridTraversal Grid.get_neighbors Grid.get_moving_cost
      manhattan_heuristic (astRunC3 10)).1 = false ∧
    chainCost gC3 (parentChain (dijRunC3 10).parents 10 (0, 2)) = 0 ∧
    chainCost gC3 (parentChain (astRunC3 10).parents 10 (0, 2)) = 2 ∧
    chainCost gC3 (parentChain (dijRunC3 10).parents 10 (0, 2)) ≠
      chainCost gC3 (parentChain (astRunC3 10).parents 10 (0, 2)) := by
  decide

/-- C3 (amended): the equal-cost guarantee does not hold for every structure
(the counterexample uses a zero-cost cell, which makes the Manhattan
heuristic inadmissible); on the spec's own benchmark — the 5×5
fully-activated unit-cost grid, START `(0,0)`, GOAL `(4,4)` — both engines
run to completion and reconstruct paths of equal total movement cost 8. -/
theorem C3_amended_benchmark :
    (dijRun5 30).found = true ∧ (astRun5 30).found = true ∧
    (DijkstraAlgorithm.step gridTraversal Grid.get_neighbors Grid.get_moving_cost
      (dijRun5 30)).1 = false ∧
    (AStarAlgorithm.step gridTraversal Grid.get_neighbors Grid.get_moving_cost
      manhattan_heuristic (astRun5 30)).1 = false ∧
    chainCost g5 (parentChain (dijRun5 30).parents 40 (4, 4)) =
      chainCost g5 (parentChain (astRun5 30).parents 40 (4, 4)) ∧
    chainCost g5 (parentChain (dijRun5 30).parents 40 (4, 4)) = 8 := by
  decide

/-- C2, counterexample: `Graph.change_state` enforces no START uniqueness:
on a two-node graph whose node 0 is already START, setting START on node 1
leaves two START nodes. -/
theorem C2_counterexample :
    graphStartCount graphC2 = 1 ∧
    graphStartCount (graphC2.change_state 1 .start) = 2 := by
  decide

/-- Characterization of the state testers. -/
theorem is_start_iff {s : NodeState} : s.is_start = true ↔ s = .start := by
  cases s <;> simp [NodeState.is_start]

/-- Characterization of `is_goal`. -/
theorem is_goal_iff {s : NodeState} : s.is_goal = true ↔ s = .goal := by
  cases s <;> simp [NodeState.is_goal]

/-- Characterization of `is_activated`. -/
theorem is_activated_iff {s : NodeState} : s.is_activated = true ↔ s = .activated := by
  cases s <;> simp [NodeState.is_activated]

/-- Characterization of `is_deactivated`. -/
theorem is_deactivated_iff {s : NodeState} : s.is_deactivated = true ↔ s = .deactivated := by
  cases s <;> simp [NodeState.is_deactivated]

/-- Counting through a pointwise update: on a duplicate-free list containing
the updated key, the count changes by swapping the old value's contribution
for the new one's. -/
theorem countP_update_add {α β : Type} [DecidableEq α] (pred : β → Bool)
    (f : α → β) (v : β) :
    ∀ (l : List α), l.Nodup → ∀ {x : α}, x ∈ l →
      l.countP (fun a => pred (Function.update f x v a)) +
        (if pred (f x) then 1 else 0) =
      l.countP (fun a => pred (f a)) + (if pred v then 1 else 0) := by
  intro l
  induction l with
  | nil => intro _ x hx; cases hx
  | cons a l ih =>
    intro hnd x hx
    rw [List.nodup_cons] at hnd
    rw [List.countP_cons, List.countP_cons]
    rcases List.mem_cons.mp hx with rfl | hxl
    · have hcongr : l.countP (fun b => pred (Function.update f x v b)) =
          l.countP (fun b => pred (f b)) := by
        apply List.countP_congr
        intro b hb
        rw [Function.update_noteq (fun h => hnd.1 (by rwa [h] at hb)) v f]
      rw [hcongr, Function.update_same]
      omega
    · have hax : a ≠ x := fun h => hnd.1 (h ▸ hxl)
      rw [Function.update_noteq hax v f]
      have := ih hnd.2 hxl
      omega

/-- Membership in a grid's position list is exactly the bounds check. -/
theorem Grid.mem_positions {g : Grid} {p : Pos} :
    p ∈ g.positions ↔ g.inBounds p := by
  rcases p with ⟨pr, pc⟩
  unfold Grid.positions Grid.inBounds
  simp only [List.mem_flatMap, List.mem_map, List.mem_range, Prod.mk.injEq]
  constructor
  · rintro ⟨r, hr, c, hc, h1, h2⟩
    refine ⟨?_, ?_, ?_, ?_⟩ <;> omega
  · rintro ⟨h1, h2, h3, h4⟩
    exact ⟨pr.toNat, by omega, pc.toNat, by omega, by omega, by omega⟩

/-- The position list is duplicate-free. -/
theorem Grid.positions_nodup (g : Grid) : g.positions.Nodup := by
  unfold Grid.positions
  rw [List.nodup_flatMap]
  constructor
  · intro r _
    exact (List.nodup_range g.width).map
      (fun c₁ c₂ h => by
        have := congrArg Prod.snd h
        simpa using this)
  · have : List.Pairwise (· ≠ ·) (List.range g.height) :=
      (List.pairwise_lt_range g.height).imp Nat.ne_of_lt
    refine this.imp ?_
    intro r₁ r₂ hne
    rw [Function.onFun, List.disjoint_left]
    rintro p hp₁ hp₂
    simp only [List.mem_map, List.mem_range] at hp₁ hp₂
    obtain ⟨c₁, _, rfl⟩ := hp₁
    obtain ⟨c₂, _, h⟩ := hp₂
    have := congrArg Prod.fst h
    exact hne (by simpa using this.symm)

/-- Cell updates do not change the position list. -/
theorem Grid.positions_setCellState (g : Grid) (p : Pos) (s : NodeState) :
    (g.setCellState p s).positions = g.positions := rfl

/-- Counting STARTs through a single cell-state write. -/
theorem startCount_set (g : Grid) {p : Pos} (hp : g.inBounds p) (s : NodeState) :
    startCount (g.setCellState p s) +
      (if (g.cells p).state.is_start then 1 else 0) =
    startCount g + (if s.is_start then 1 else 0) :=
  countP_update_add (fun sq : Square => sq.state.is_start) g.cells
    { g.cells p with state := s } g.positions (g.positions_nodup)
    (Grid.mem_positions.mpr hp)

/-- Counting GOALs through a single cell-state write. -/
theorem goalCount_set (g : Grid) {p : Pos} (hp : g.inBounds p) (s : NodeState) :
    goalCount (g.setCellState p s) +
      (if (g.cells p).state.is_goal then 1 else 0) =
    goalCount g + (if s.is_goal then 1 else 0) :=
  countP_update_add (fun sq : Square => sq.state.is_goal) g.cells
    { g.cells p with state := s } g.positions (g.positions_nodup)
    (Grid.mem_positions.mpr hp)

/-- What a successful `get_start` returns. -/
theorem Grid.get_start_spec {g : Grid} {p : Pos} (h : g.get_start = some p) :
    g.inBounds p ∧ (g.cells p).state.is_start = true := by
  refine ⟨Grid.mem_positions.mp (List.mem_of_find?_eq_some h), ?_⟩
  have := List.find?_some h
  simpa using this

/-- A failed `get_start` means no square is START. -/
theorem Grid.get_start_none {g : Grid} (h : g.get_start = none) :
    ∀ p, g.inBounds p → ¬(g.cells p).state.is_start = true := fun p hp =>
  List.find?_eq_none.mp h p (Grid.mem_positions.mpr hp)

/-- What a successful `get_goal` returns. -/
theorem Grid.get_goal_spec {g : Grid} {p : Pos} (h : g.get_goal = some p) :
    g.inBounds p ∧ (g.cells p).state.is_goal = true := by
  refine ⟨Grid.mem_positions.mp (List.mem_of_find?_eq_some h), ?_⟩
  have := List.find?_some h
  simpa using this

/-- A failed `get_goal` means no square is GOAL. -/
theorem Grid.get_goal_none {g : Grid} (h : g.get_goal = none) :
    ∀ p, g.inBounds p → ¬(g.cells p).state.is_goal = true := fun p hp =>
  List.find?_eq_none.mp h p (Grid.mem_positions.mpr hp)

/-- The start count is zero exactly when no in-bounds square is START. -/
theorem startCount_eq_zero {g : Grid} :
    startCount g = 0 ↔ ∀ p, g.inBounds p → ¬(g.cells p).state.is_start = true := by
  unfold startCount
  rw [List.countP_eq_zero]
  exact ⟨fun h p hp => h p (Grid.mem_positions.mpr hp),
    fun h p hp => h p (Grid.mem_positions.mp hp)⟩

/-- The goal count is zero exactly when no in-bounds square is GOAL. -/
theorem goalCount_eq_zero {g : Grid} :
    goalCount g = 0 ↔ ∀ p, g.inBounds p → ¬(g.cells p).state.is_goal = true := by
  unfold goalCount
  rw [List.countP_eq_zero]
  exact ⟨fun h p hp => h p (Grid.mem_positions.mpr hp),
    fun h p hp => h p (Grid.mem_positions.mp hp)⟩

/-- A START square makes the start count positive. -/
theorem startCount_pos {g : Grid} {p : Pos} (hp : g.inBounds p)
    (h : (g.cells p).state.is_start = true) : 0 < startCount g :=
  List.countP_pos_iff.mpr ⟨p, Grid.mem_positions.mpr hp, h⟩

/-- A GOAL square makes the goal count positive. -/
theorem goalCount_pos {g : Grid} {p : Pos} (hp : g.inBounds p)
    (h : (g.cells p).state.is_goal = true) : 0 < goalCount g :=
  List.countP_pos_iff.mpr ⟨p, Grid.mem_positions.mpr hp, h⟩

/-- C2 (amended): on a grid holding at most one START square, `change_state`
with START yields exactly one START square, and symmetrically for GOAL.  (The
claim's "regardless of how many nodes were START beforehand" fails — the
demotion step only clears the first START found — and the graph's
`change_state` does no clearing at all, see the counterexample.) -/
theorem C2_amended (g : Grid) (row col : ℤ) (hin : g.inBounds (row, col)) :
    (startCount g ≤ 1 → startCount (g.change_state row col .start) = 1) ∧
    (goalCount g ≤ 1 → goalCount (g.change_state row col .goal) = 1) := by
  constructor
  · intro hle
    show startCount ((g.clear_existing_start).setCellState (row, col) .start) = 1
    rcases hs : g.get_start with _ | p
    · have hzero : startCount g = 0 :=
        startCount_eq_zero.mpr (Grid.get_start_none hs)
      have hcell : ¬(g.cells (row, col)).state.is_start = true :=
        Grid.get_start_none hs (row, col) hin
      have hset := startCount_set g hin .start
      unfold Grid.clear_existing_start
      rw [hs]
      show startCount (g.setCellState (row, col) NodeState.start) = 1
      rw [if_neg hcell, if_pos (by decide : NodeState.start.is_start = true)] at hset
      omega
    · obtain ⟨hpin, hpstart⟩ := Grid.get_start_spec hs
      have hone : startCount g = 1 := by
        have := startCount_pos hpin hpstart
        omega
      have hclear := startCount_set g hpin .activated
      rw [if_pos hpstart,
        if_neg (by decide : ¬NodeState.activated.is_start = true)] at hclear
      have hclear0 : startCount (g.setCellState p .activated) = 0 := by omega
      unfold Grid.clear_existing_start
      rw [hs]
      show startCount ((g.setCellState p .activated).setCellState (row, col)
        NodeState.start) = 1
      have hin2 : (g.setCellState p .activated).inBounds (row, col) := hin
      have hset := startCount_set (g.setCellState p .activated) hin2 .start
      have hcell2 : ¬((g.setCellState p .activated).cells (row, col)).state.is_start
          = true :=
        startCount_eq_zero.mp hclear0 (row, col) hin2
      rw [if_neg hcell2,
        if_pos (by decide : NodeState.start.is_start = true)] at hset
      omega
  · intro hle
    show goalCount ((g.clear_existing_goal).setCellState (row, col) .goal) = 1
    rcases hs : g.get_goal with _ | p
    · have hzero : goalCount g = 0 :=
        goalCount_eq_zero.mpr (Grid.get_goal_none hs)
      have hcell : ¬(g.cells (row, col)).state.is_goal = true :=
        Grid.get_goal_none hs (row, col) hin
      have hset := goalCount_set g hin .goal
      unfold Grid.clear_existing_goal
      rw [hs]
      show goalCount (g.setCellState (row, col) NodeState.goal) = 1
      rw [if_neg hcell, if_pos (by decide : NodeState.goal.is_goal = true)] at hset
      omega
    · obtain ⟨hpin, hpgoal⟩ := Grid.get_goal_spec hs
      have hone : goalCount g = 1 := by
        have := goalCount_pos hpin hpgoal
        omega
      have hclear := goalCount_set g hpin .activated
      rw [if_pos hpgoal,
        if_neg (by decide : ¬NodeState.activated.is_goal = true)] at hclear
      have hclear0 : goalCount (g.setCellState p .activated) = 0 := by omega
      unfold Grid.clear_existing_goal
      rw [hs]
      show goalCount ((g.setCellState p .activated).setCellState (row, col)
        NodeState.goal) = 1
      have hin2 : (g.setCellState p .activated).inBounds (row, col) := hin
      have hset := goalCount_set (g.setCellState p .activated) hin2 .goal
      have hcell2 : ¬((g.setCellState p .activated).cells (row, col)).state.is_goal
          = true :=
        goalCount_eq_zero.mp hclear0 (row, col) hin2
      rw [if_neg hcell2,
        if_pos (by decide : NodeState.goal.is_goal = true)] at hset
      omega

/-- C2 witness: the amended theorem applied to the 5×5 benchmark grid at cell
`(2,2)`. -/
theorem C2_amended_witness :
    startCount (g5.change_state 2 2 .start) = 1 ∧
    goalCount (g5.change_state 2 2 .goal) = 1 :=
  ⟨(C2_amended g5 2 2 (by decide)).1 (by decide),
   (C2_amended g5 2 2 (by decide)).2 (by decide)⟩

/-- C10: a plain activate request demotes a GOAL square (the no-op protection
in the ACTIVATED branch checks only for START): activating the unique GOAL
square leaves the grid with no GOAL at all. -/
theorem C10_activate_demotes_goal (g : Grid) (row col : ℤ)
    (hin : g.inBounds (row, col))
    (hgoal : (g.cells (row, col)).state = .goal)
    (huniq : ∀ p ∈ g.positions, p ≠ (row, col) → ¬(g.cells p).state = .goal) :
    ((g.change_state row col .activated).cells (row, col)).state = .activated ∧
    (g.change_state row col .activated).get_goal = none := by
  have hns : ¬(g.cells (row, col)).state.is_start = true := by
    rw [hgoal]; decide
  have hcs : g.change_state row col .activated =
      g.setCellState (row, col) .activated := by
    unfold Grid.change_state
    rw [if_pos hns]
  rw [hcs]
  constructor
  · unfold Grid.setCellState
    simp [Function.update_same]
  · unfold Grid.get_goal
    rw [List.find?_eq_none]
    intro p hp
    by_cases hpe : p = (row, col)
    · subst hpe
      unfold Grid.setCellState
      simp [Function.update_same, NodeState.is_goal]
    · unfold Grid.setCellState
      simp only [Function.update_noteq hpe]
      have := huniq p hp hpe
      rw [Bool.not_eq_true]
      rw [show ∀ s : NodeState, s.is_goal = false ↔ ¬s = .goal by
        intro s; cases s <;> simp [NodeState.is_goal]]
      exact this

/-- C10 witness: the theorem applied to the 1×2 grid whose only GOAL is at
`(0,0)`. -/
theorem C10_witness :
    ((gC10.change_state 0 0 .activated).cells (0, 0)).state = .activated ∧
    (gC10.change_state 0 0 .activated).get_goal = none :=
  C10_activate_demotes_goal gC10 0 0 (by decide) (by decide) (by decide)

/-- C7: `add_edge` is a no-op when the endpoints coincide, when either is
absent, or when an edge between them already exists; consequently, for a
valid pair on a graph respecting the at-most-one-edge invariant, adding the
edge twice leaves exactly one edge between the pair. -/
theorem C7_add_edge_idempotent (gr : Graph) (a b : ℕ) :
    (a = b → gr.add_edge a b = gr) ∧
    (a ∉ gr.nodes → gr.add_edge a b = gr) ∧
    (b ∉ gr.nodes → gr.add_edge a b = gr) ∧
    (gr.get_edge a b ≠ none → gr.add_edge a b = gr) ∧
    (a ≠ b → a ∈ gr.nodes → b ∈ gr.nodes → edgesBetween gr a b ≤ 1 →
      edgesBetween ((gr.add_edge a b).add_edge a b) a b = 1) := by
  refine ⟨?_, ?_, ?_, ?_, ?_⟩
  · intro h
    unfold Graph.add_edge
    rw [if_neg (fun hc => hc.2.2.1 h)]
  · intro h
    unfold Graph.add_edge
    rw [if_neg (fun hc => h hc.1)]
  · intro h
    unfold Graph.add_edge
    rw [if_neg (fun hc => h hc.2.1)]
  · intro h
    unfold Graph.add_edge
    rw [if_neg (fun hc => h hc.2.2.2)]
  · intro hne ha hb hle
    rcases he : gr.get_edge a b with _ | e
    · have h0 : edgesBetween gr a b = 0 := by
        unfold edgesBetween
        rw [List.countP_eq_zero]
        intro e2 he2
        exact List.find?_eq_none.mp he e2 he2
      have hadd : gr.add_edge a b =
          { gr with edges := gr.edges ++ [⟨a, b, 1, .activated⟩] } := by
        unfold Graph.add_edge
        rw [if_pos ⟨ha, hb, hne, he⟩]
      have hpred : (fun e : Edge => decide ((e.node1 = a ∧ e.node2 = b) ∨
          (e.node1 = b ∧ e.node2 = a))) ⟨a, b, 1, .activated⟩ = true := by
        simp
      have hedge2 : (gr.add_edge a b).get_edge a b =
          some ⟨a, b, 1, .activated⟩ := by
        rw [hadd]
        unfold Graph.get_edge
        rw [List.find?_append]
        have : gr.edges.find? (fun e : Edge => decide ((e.node1 = a ∧ e.node2 = b) ∨
            (e.node1 = b ∧ e.node2 = a))) = none := he
        rw [this]
        rw [Option.none_or]
        exact List.find?_cons_of_pos _ hpred
      have hsecond : (gr.add_edge a b).add_edge a b = gr.add_edge a b := by
        generalize hG : gr.add_edge a b = G1 at hedge2
        unfold Graph.add_edge
        rw [if_neg]
        rintro ⟨-, -, -, hcontra⟩
        rw [hedge2] at hcontra
        cases hcontra
      rw [hsecond, hadd]
      unfold edgesBetween
      rw [List.countP_append]
      have h0e : gr.edges.countP (fun e : Edge => decide ((e.node1 = a ∧ e.node2 = b) ∨
          (e.node1 = b ∧ e.node2 = a))) = 0 := h0
      rw [h0e]
      simp [List.countP_cons, hpred]
    · have hnoop : gr.add_edge a b = gr := by
        unfold Graph.add_edge
        rw [if_neg]
        rintro ⟨-, -, -, hcontra⟩
        rw [he] at hcontra
        cases hcontra
      rw [hnoop, hnoop]
      have hmem := List.mem_of_find?_eq_some he
      have hpred := List.find?_some he
      have hpos : 0 < edgesBetween gr a b :=
        List.countP_pos_iff.mpr ⟨e, hmem, hpred⟩
      omega

/-- C7 witness: the theorem applied to the two-node edgeless graph (self-loop
no-op and double insertion of the valid pair `0,1`). -/
theorem C7_witness :
    graphC7.add_edge 0 0 = graphC7 ∧
    edgesBetween ((graphC7.add_edge 0 1).add_edge 0 1) 0 1 = 1 :=
  ⟨(C7_add_edge_idempotent graphC7 0 0).1 rfl,
   (C7_add_edge_idempotent graphC7 0 1).2.2.2.2 (by decide) (by decide)
     (by decide) (by decide)⟩

/-- Digit characters evaluate back to their digit. -/
theorem toNat_digitChar {d : ℕ} (hd : d < 10) :
    (Char.ofNat (48 + d)).toNat = 48 + d := by
  interval_cases d <;> decide

/-- Every character `natToCharsAux` emits is a decimal digit. -/
theorem natToCharsAux_digits :
    ∀ fuel n, n < fuel → ∀ c ∈ natToCharsAux fuel n,
      48 ≤ c.toNat ∧ c.toNat ≤ 57 := by
  intro fuel
  induction fuel with
  | zero => intro n hn; omega
  | succ fuel ih =>
    intro n hn c hc
    rw [natToCharsAux] at hc
    by_cases h10 : n < 10
    · rw [if_pos h10] at hc
      rcases List.mem_singleton.mp hc with rfl
      rw [toNat_digitChar h10]
      omega
    · rw [if_neg h10] at hc
      rcases List.mem_append.mp hc with hc | hc
      · exact ih (n / 10) (by omega) c hc
      · rcases List.mem_singleton.mp hc with rfl
        rw [toNat_digitChar (by omega)]
        omega

/-- `natToCharsAux` never returns the empty string when fueled enough. -/
theorem natToCharsAux_ne_nil :
    ∀ fuel n, n < fuel → natToCharsAux fuel n ≠ [] := by
  intro fuel
  cases fuel with
  | zero => intro n hn; omega
  | succ fuel =>
    intro n hn
    rw [natToCharsAux]
    by_cases h10 : n < 10
    · rw [if_pos h10]; exact List.cons_ne_nil _ _
    · rw [if_neg h10]
      intro h
      rcases List.append_eq_nil.mp h with ⟨-, h2⟩
      exact List.cons_ne_nil _ _ h2

/-- Reading back the emitted digits recovers the number. -/
theorem parseDigits_natToCharsAux :
    ∀ fuel n, n < fuel → parseDigits (natToCharsAux fuel n) = n := by
  intro fuel
  induction fuel with
  | zero => intro n hn; omega
  | succ fuel ih =>
    intro n hn
    rw [natToCharsAux]
    by_cases h10 : n < 10
    · rw [if_pos h10]
      show List.foldl _ 0 _ = n
      rw [List.foldl_cons, List.foldl_nil]
      rw [toNat_digitChar h10]
      omega
    · rw [if_neg h10]
      show List.foldl _ 0 _ = n
      rw [List.foldl_append, List.foldl_cons, List.foldl_nil]
      have hrec := ih (n / 10) (by omega)
      show 10 * parseDigits (natToCharsAux fuel (n / 10)) +
        ((Char.ofNat (48 + n % 10)).toNat - 48) = n
      rw [hrec, toNat_digitChar (by omega)]
      omega

/-- Character facts for `natToChars`. -/
theorem natToChars_digits {n : ℕ} {c : Char} (hc : c ∈ natToChars n) :
    48 ≤ c.toNat ∧ c.toNat ≤ 57 :=
  natToCharsAux_digits (n + 1) n (by omega) c hc

/-- A digit string is nonempty. -/
theorem natToChars_ne_nil {n : ℕ} : natToChars n ≠ [] :=
  natToCharsAux_ne_nil (n + 1) n (by omega)

/-- Round trip at the single-number level. -/
theorem parseDigits_natToChars (n : ℕ) : parseDigits (natToChars n) = n :=
  parseDigits_natToCharsAux (n + 1) n (by omega)

/-- Digit characters are not whitespace. -/
theorem digit_not_space {c : Char} (hc : 48 ≤ c.toNat ∧ c.toNat ≤ 57) :
    ¬isPySpace c = true := by
  intro h
  have h2 : ((c = ' ' ∨ c = '\n') ∨ c = '\t') ∨ c = '\r' := by
    simpa [isPySpace] using h
  rcases h2 with ((rfl | rfl) | rfl) | rfl <;> simp at hc

/-- Digit characters are not newlines. -/
theorem digit_not_newline {c : Char} (hc : 48 ≤ c.toNat ∧ c.toNat ≤ 57) :
    ¬c = '\n' := by
  rintro rfl
  simp at hc

/-- Digit characters are not the minus sign. -/
theorem digit_not_minus {c : Char} (hc : 48 ≤ c.toNat ∧ c.toNat ≤ 57) :
    ¬c = '-' := by
  rintro rfl
  simp at hc

/-- Unfolding equation for `joinSep` on a two-or-more-element list. -/
theorem joinSep_cons₂ (sep x y : List Char) (ts : List (List Char)) :
    joinSep sep (x :: y :: ts) = x ++ sep ++ joinSep sep (y :: ts) := rfl

/-- Characters of a separator-joined list come from the separator or from a
token. -/
theorem mem_joinSep {sep : List Char} {c : Char} :
    ∀ {ts : List (List Char)}, c ∈ joinSep sep ts →
      c ∈ sep ∨ ∃ t ∈ ts, c ∈ t := by
  intro ts
  induction ts with
  | nil => intro h; cases h
  | cons t ts ih =>
    intro h
    cases ts with
    | nil =>
      exact Or.inr ⟨t, List.mem_singleton.mpr rfl, h⟩
    | cons t2 ts2 =>
      rw [joinSep_cons₂, List.append_assoc] at h
      rcases List.mem_append.mp h with h | h
      · exact Or.inr ⟨t, List.mem_cons_self t _, h⟩
      · rcases List.mem_append.mp h with h | h
        · exact Or.inl h
        · rcases ih h with h | ⟨t3, ht3, hc3⟩
          · exact Or.inl h
          · exact Or.inr ⟨t3, List.mem_cons_of_mem _ ht3, hc3⟩

/-- Elements found by `head?` are members. -/
theorem mem_of_head? {α : Type} {l : List α} {a : α} (h : l.head? = some a) :
    a ∈ l := by
  cases l with
  | nil => cases h
  | cons b bs =>
    rw [List.head?_cons] at h
    exact List.mem_cons.mpr (Or.inl (Option.some.inj h).symm)

/-- Elements found by `getLast?` are members. -/
theorem mem_of_getLast? {α : Type} {l : List α} {a : α} (h : l.getLast? = some a) :
    a ∈ l := by
  have := List.head?_reverse l
  rw [← this] at h
  have := mem_of_head? h
  exact List.mem_reverse.mp this

/-- The head of a separator-joined nonempty-token list is the first token's
head. -/
theorem joinSep_head? {sep t : List Char} {ts : List (List Char)} (ht : t ≠ []) :
    (joinSep sep (t :: ts)).head? = t.head? := by
  cases ts with
  | nil => rfl
  | cons t2 ts2 =>
    rw [joinSep_cons₂, List.append_assoc, List.head?_append_of_ne_nil _ ht]

/-- The last element of a separator-joined list of nonempty tokens is the
last token's last element. -/
theorem joinSep_getLast? {sep : List Char} :
    ∀ {ts : List (List Char)} {t : List Char}, (∀ u ∈ t :: ts, u ≠ []) →
      ∃ u ∈ t :: ts, (joinSep sep (t :: ts)).getLast? = u.getLast? := by
  intro ts
  induction ts with
  | nil =>
    intro t _
    exact ⟨t, List.mem_cons_self t _, rfl⟩
  | cons t2 ts2 ih =>
    intro t h
    obtain ⟨u, hu, he⟩ := ih (fun v hv => h v (List.mem_cons_of_mem _ hv))
    refine ⟨u, List.mem_cons_of_mem _ hu, ?_⟩
    rw [joinSep_cons₂, List.append_assoc, List.getLast?_append, List.getLast?_append]
    have hjoin : (joinSep sep (t2 :: ts2)).getLast? = u.getLast? := he
    have hne : joinSep sep (t2 :: ts2) ≠ [] := by
      intro hcontra
      have h2 := @joinSep_head? sep t2 ts2
        (h t2 (List.mem_cons_of_mem _ (List.mem_cons_self t2 _)))
      rw [hcontra] at h2
      rcases e : t2 with _ | ⟨c, cs⟩
      · exact h t2 (List.mem_cons_of_mem _ (List.mem_cons_self t2 _)) e
      · rw [e, List.head?_cons] at h2
        cases h2
    have hlast : (joinSep sep (t2 :: ts2)).getLast? ≠ none := by
      rw [hjoin]
      rcases e : u with _ | ⟨c, cs⟩
      · exact absurd e (h u (List.mem_cons_of_mem _ hu))
      · simp [List.getLast?_eq_none_iff]
    rcases e2 : (joinSep sep (t2 :: ts2)).getLast? with _ | c
    · exact absurd e2 hlast
    · show some c = u.getLast?
      rw [← e2, hjoin]

/-- Line iteration peels one newline-terminated, newline-free line. -/
theorem pyLinesAux_append {l : List Char} (hl : ∀ c ∈ l, ¬c = '\n') :
    ∀ (rest acc : List Char),
      pyLinesAux (l ++ '\n' :: rest) acc =
        (acc.reverse ++ l) :: pyLinesAux rest [] := by
  induction l with
  | nil =>
    intro rest acc
    rw [List.nil_append, pyLinesAux, if_pos rfl, List.append_nil]
  | cons c cs ih =>
    intro rest acc
    rw [List.cons_append, pyLinesAux, if_neg (hl c (List.mem_cons_self c cs))]
    rw [ih (fun d hd => hl d (List.mem_cons_of_mem c hd)) rest (c :: acc)]
    rw [List.reverse_cons, List.append_assoc, List.singleton_append]

/-- Line iteration inverts writing newline-free lines. -/
theorem pyLines_flatten :
    ∀ (ls : List (List Char)), (∀ l ∈ ls, ∀ c ∈ l, ¬c = '\n') →
      pyLines ((ls.map fun l => l ++ ['\n']).flatten) = ls := by
  intro ls
  induction ls with
  | nil => intro _; rfl
  | cons l ls ih =>
    intro h
    rw [List.map_cons, List.flatten_cons]
    unfold pyLines
    rw [List.append_assoc, List.singleton_append]
    rw [pyLinesAux_append (h l (List.mem_cons_self l ls)) _ []]
    rw [List.reverse_nil, List.nil_append]
    exact congrArg (l :: ·) (ih fun u hu => h u (List.mem_cons_of_mem l hu))

/-- Stripping is the identity on lines with non-space first and last
characters. -/
theorem pyStrip_eq_self {l : List Char}
    (h1 : ∀ c, l.head? = some c → ¬isPySpace c = true)
    (h2 : ∀ c, l.getLast? = some c → ¬isPySpace c = true) :
    pyStrip l = l := by
  unfold pyStrip
  cases l with
  | nil => rfl
  | cons a as =>
    rw [List.dropWhile_cons, if_neg (h1 a (List.head?_cons))]
    rcases e : (a :: as).reverse with _ | ⟨b, bs⟩
    · exact absurd (congrArg List.length e) (by simp)
    · have hb : (a :: as).getLast? = some b := by
        rw [← List.head?_reverse, e, List.head?_cons]
      rw [List.dropWhile_cons, if_neg (h2 b hb)]
      conv_rhs => rw [← List.reverse_reverse (a :: as), e]

/-- `pySplitAux` absorbs a whole space-free token into its accumulator. -/
theorem pySplitAux_token {t : List Char} (ht : ∀ c ∈ t, ¬isPySpace c = true) :
    ∀ (l acc : List Char),
      pySplitAux (t ++ l) acc = pySplitAux l (t.reverse ++ acc) := by
  induction t with
  | nil => intro l acc; rw [List.nil_append, List.reverse_nil, List.nil_append]
  | cons c cs ih =>
    intro l acc
    rw [List.cons_append, pySplitAux, if_neg (ht c (List.mem_cons_self c cs))]
    rw [ih (fun d hd => ht d (List.mem_cons_of_mem c hd)) l (c :: acc)]
    rw [List.reverse_cons, List.append_assoc, List.singleton_append]

/-- Splitting inverts joining nonempty space-free tokens with a space. -/
theorem pySplit_joinSep :
    ∀ (ts : List (List Char)),
      (∀ t ∈ ts, t ≠ [] ∧ ∀ c ∈ t, ¬isPySpace c = true) →
      pySplit (joinSep [' '] ts) = ts := by
  intro ts
  induction ts with
  | nil => intro _; rfl
  | cons t ts ih =>
    intro h
    obtain ⟨hne, hchars⟩ := h t (List.mem_cons_self t ts)
    cases ts with
    | nil =>
      show pySplitAux (joinSep [' '] [t]) [] = [t]
      rw [show joinSep [' '] [t] = t ++ [] from (List.append_nil t).symm]
      rw [pySplitAux_token hchars [] []]
      rw [pySplitAux, if_neg (by simpa using hne)]
      rw [List.append_nil, List.reverse_reverse]
    | cons t2 ts2 =>
      show pySplitAux (joinSep [' '] (t :: t2 :: ts2)) [] = t :: t2 :: ts2
      rw [joinSep_cons₂, List.append_assoc, List.singleton_append]
      rw [pySplitAux_token hchars _ []]
      rw [pySplitAux, if_pos (show isPySpace ' ' = true from rfl),
        if_neg (by simpa using hne)]
      rw [List.append_nil, List.reverse_reverse]
      exact congrArg (t :: ·) (ih fun u hu => h u (List.mem_cons_of_mem t hu))

/-- Python `int` on a token not starting with a minus sign parses digits. -/
theorem pyInt_cons_ne_minus {c : Char} {cs : List Char} (h : ¬c = '-') :
    pyInt (c :: cs) = (parseDigits (c :: cs) : ℤ) := by
  unfold pyInt
  split
  · next ds heq =>
    rw [List.cons.injEq] at heq
    exact absurd heq.1 h
  · rfl

/-- Writing a non-negative int yields its digits. -/
theorem intToChars_nonneg {v : ℤ} (h : 0 ≤ v) :
    intToChars v = natToChars v.toNat := by
  unfold intToChars
  rw [if_neg (by omega)]

/-- Round trip at the token level for non-negative values. -/
theorem pyInt_intToChars {v : ℤ} (h : 0 ≤ v) : pyInt (intToChars v) = v := by
  rw [intToChars_nonneg h]
  rcases e : natToChars v.toNat with _ | ⟨c, cs⟩
  · exact absurd e natToChars_ne_nil
  · have hc : 48 ≤ c.toNat ∧ c.toNat ≤ 57 :=
      natToChars_digits (by rw [e]; exact List.mem_cons_self c cs)
    rw [pyInt_cons_ne_minus (digit_not_minus hc), ← e, parseDigits_natToChars]
    omega

/-- C8: writing a 2D list of non-negative integers with
`write_costs_to_file` and loading the file back with `load_grid_costs`
reproduces the original matrix. -/
theorem C8_roundtrip (costs : List (List ℤ))
    (hnn : ∀ row ∈ costs, ∀ v ∈ row, 0 ≤ v) :
    load_grid_costs (write_costs_to_file costs) = costs := by
  unfold load_grid_costs write_costs_to_file
  have htok : ∀ row ∈ costs, ∀ t ∈ row.map intToChars,
      t ≠ [] ∧ ∀ c ∈ t, 48 ≤ c.toNat ∧ c.toNat ≤ 57 := by
    intro row hrow t ht
    rw [List.mem_map] at ht
    obtain ⟨v, hv, rfl⟩ := ht
    rw [intToChars_nonneg (hnn row hrow v hv)]
    exact ⟨natToChars_ne_nil, fun c hc => natToChars_digits hc⟩
  have hlines : pyLines ((costs.map fun row =>
      joinSep [' '] (row.map intToChars) ++ ['\n']).flatten) =
      costs.map fun row => joinSep [' '] (row.map intToChars) := by
    have hmap : (costs.map fun row => joinSep [' '] (row.map intToChars) ++ ['\n'])
        = ((costs.map fun row => joinSep [' '] (row.map intToChars)).map
            fun l => l ++ ['\n']) := by
      rw [List.map_map]
      rfl
    rw [hmap]
    apply pyLines_flatten
    intro l hl
    rw [List.mem_map] at hl
    obtain ⟨row, hrow, rfl⟩ := hl
    intro c hc
    rcases mem_joinSep hc with h | ⟨t, ht, hct⟩
    · rcases List.mem_singleton.mp h with rfl; decide
    · exact digit_not_newline ((htok row hrow t ht).2 c hct)
  rw [hlines, List.map_map]
  conv_rhs => rw [← List.map_id costs]
  apply List.map_congr_left
  intro row hrow
  show (pySplit (pyStrip (joinSep [' '] (row.map intToChars)))).map pyInt = id row
  have htokr := htok row hrow
  cases row with
  | nil => rfl
  | cons v vs =>
    have hsplit0 : (v :: vs).map intToChars =
        intToChars v :: vs.map intToChars := rfl
    have hmem0 : intToChars v ∈ (v :: vs).map intToChars := by
      rw [hsplit0]; exact List.mem_cons_self _ _
    have hhead : ∀ c, (joinSep [' '] ((v :: vs).map intToChars)).head? = some c →
        ¬isPySpace c = true := by
      intro c hc
      rw [hsplit0, joinSep_head? (htokr (intToChars v) hmem0).1] at hc
      exact digit_not_space ((htokr (intToChars v) hmem0).2 c (mem_of_head? hc))
    have hlast : ∀ c, (joinSep [' '] ((v :: vs).map intToChars)).getLast? = some c →
        ¬isPySpace c = true := by
      intro c hc
      obtain ⟨u, hu, he⟩ := @joinSep_getLast? [' '] (vs.map intToChars)
        (intToChars v)
        (fun u hu => (htokr u (by rw [hsplit0]; exact hu)).1)
      rw [hsplit0, he] at hc
      exact digit_not_space
        ((htokr u (by rw [hsplit0]; exact hu)).2 c (mem_of_getLast? hc))
    rw [pyStrip_eq_self hhead hlast]
    rw [pySplit_joinSep ((v :: vs).map intToChars)
      (fun t ht => ⟨(htokr t ht).1,
        fun c hc => digit_not_space ((htokr t ht).2 c hc)⟩)]
    rw [List.map_map]
    show (v :: vs).map (pyInt ∘ intToChars) = id (v :: vs)
    conv_rhs => rw [show id (v :: vs) = (v :: vs) from rfl, ← List.map_id (v :: vs)]
    apply List.map_congr_left
    intro x hx
    exact pyInt_intToChars (hnn (v :: vs) hrow x hx)

/-- C8 witness: the round trip evaluated on a concrete matrix. -/
theorem C8_roundtrip_witness :
    load_grid_costs (write_costs_to_file [[1, 2, 30], [], [0, 7]]) =
      [[1, 2, 30], [], [0, 7]] :=
  C8_roundtrip [[1, 2, 30], [], [0, 7]] (by decide)

/-- Node-state writes on a grid are pointwise updates. -/
theorem gridTraversal_changeState (g : Grid) (n : Pos) (st : NodeState) (m : Pos) :
    gridTraversal.getState (gridTraversal.changeState g n st) m =
    if m = n then st else gridTraversal.getState g m := by
  show ((g.setCellState n st).cells m).state = _
  unfold Grid.setCellState
  show (Function.update g.cells n { g.cells n with state := st } m).state = _
  rw [Function.update_apply, apply_ite (fun sq : Square => sq.state)]
  rfl

/-- The grid traversal satisfies the interface laws. -/
theorem gridTravLaws : TravLaws gridTraversal := by
  refine ⟨gridTraversal_changeState, ?_, ?_, ?_, ?_⟩
  · intro f hf; cases hf
  · intro f hf; cases hf
  · intro f hf; cases hf
  · intro s n h
    exact (Grid.get_start_spec h).2

/-- Behavior of the `highlight_path` walk along a terminating parent chain:
parents are untouched, the chain is appended to `path`, every chain node
whose state is neither START nor GOAL is painted PATH, chain nodes in state
START or GOAL keep their state, and nodes off the chain are untouched. -/
theorem highlightLoop_spec {σ ν : Type} [DecidableEq ν] (t : Traversal σ ν)
    (hcs : ∀ s n st2 m, t.getState (t.changeState s n st2) m =
      if m = n then st2 else t.getState s m)
    (hmp : ∀ f, t.mark_edge_path = some f →
      ∀ s a b n, t.getState (f s a b) n = t.getState s n)
    (parents : ν → Option ν) :
    ∀ (c : List ν) (n : ν), ParentPath parents n c → c.Nodup →
    ∀ (fuel : ℕ), c.length ≤ fuel →
    ∀ (s : σ) (path0 : List ν),
      (highlightLoop t fuel n ⟨s, parents, path0⟩).parents = parents ∧
      (highlightLoop t fuel n ⟨s, parents, path0⟩).path = path0 ++ c ∧
      (∀ p ∈ c, t.getState (highlightLoop t fuel n ⟨s, parents, path0⟩).struct p =
        if (t.getState s p).is_start = true ∨ (t.getState s p).is_goal = true
        then t.getState s p else .path) ∧
      (∀ p, p ∉ c →
        t.getState (highlightLoop t fuel n ⟨s, parents, path0⟩).struct p =
        t.getState s p) := by
  intro c n hc
  induction hc with
  | last n hn =>
    intro hnd fuel hfuel s path0
    match fuel, hfuel with
    | fuel + 1, _ =>
      by_cases hpaint : ¬(t.getState s n).is_start = true ∧
          ¬(t.getState s n).is_goal = true
      · have hres : highlightLoop t (fuel + 1) n ⟨s, parents, path0⟩ =
            ⟨t.changeState s n .path, parents, path0 ++ [n]⟩ := by
          simp only [highlightLoop, hn, if_pos hpaint]
        rw [hres]
        refine ⟨rfl, rfl, ?_, ?_⟩
        · intro p hp
          rcases List.mem_singleton.mp hp with rfl
          rw [hcs, if_pos rfl, if_neg (by tauto)]
        · intro p hp
          have hpn : p ≠ n := fun hh => hp (hh ▸ List.mem_singleton.mpr rfl)
          rw [hcs, if_neg hpn]
      · have hres : highlightLoop t (fuel + 1) n ⟨s, parents, path0⟩ =
            ⟨s, parents, path0 ++ [n]⟩ := by
          simp only [highlightLoop, hn, if_neg hpaint]
        rw [hres]
        refine ⟨rfl, rfl, ?_, ?_⟩
        · intro p hp
          rcases List.mem_singleton.mp hp with rfl
          rw [if_pos (by tauto)]
        · intro p hp
          rfl
  | cons n m c h tail ih =>
    intro hnd fuel hfuel s path0
    rw [List.nodup_cons] at hnd
    match fuel, hfuel with
    | fuel + 1, hfuel =>
      have hflen : c.length ≤ fuel := by
        have : (n :: c).length = c.length + 1 := rfl
        omega
      have hassemble : ∀ (s2 : σ),
          (t.getState s2 n =
            (if (t.getState s n).is_start = true ∨ (t.getState s n).is_goal = true
             then t.getState s n else .path)) →
          (∀ p, p ≠ n → t.getState s2 p = t.getState s p) →
          (highlightLoop t fuel m ⟨s2, parents, path0 ++ [n]⟩).parents = parents ∧
          (highlightLoop t fuel m ⟨s2, parents, path0 ++ [n]⟩).path =
            path0 ++ n :: c ∧
          (∀ p ∈ n :: c,
            t.getState (highlightLoop t fuel m ⟨s2, parents, path0 ++ [n]⟩).struct p =
            if (t.getState s p).is_start = true ∨ (t.getState s p).is_goal = true
            then t.getState s p else .path) ∧
          (∀ p, p ∉ n :: c →
            t.getState (highlightLoop t fuel m ⟨s2, parents, path0 ++ [n]⟩).struct p =
            t.getState s p) := by
        intro s2 hs2n hs2p
        obtain ⟨ihpar, ihpath, ihin, ihout⟩ := ih hnd.2 fuel hflen s2 (path0 ++ [n])
        refine ⟨ihpar, ?_, ?_, ?_⟩
        · rw [ihpath, List.append_assoc, List.singleton_append]
        · intro p hp
          rcases List.mem_cons.mp hp with rfl | hpc
          · rw [ihout p hnd.1, hs2n]
          · have hpn : p ≠ n := fun hh => hnd.1 (hh ▸ hpc)
            rw [ihin p hpc, hs2p p hpn]
        · intro p hp
          have hpn : p ≠ n := fun hh => hp (hh ▸ List.mem_cons_self n c)
          have hpc : p ∉ c := fun hh => hp (List.mem_cons_of_mem n hh)
          rw [ihout p hpc, hs2p p hpn]
      by_cases hpaint : ¬(t.getState s n).is_start = true ∧
          ¬(t.getState s n).is_goal = true
      · rcases hmark : t.mark_edge_path with _ | f
        · have hres : highlightLoop t (fuel + 1) n ⟨s, parents, path0⟩ =
              highlightLoop t fuel m
                ⟨t.changeState s n .path, parents, path0 ++ [n]⟩ := by
            simp only [highlightLoop, h, hmark, if_pos hpaint]
          rw [hres]
          apply hassemble
          · rw [hcs, if_pos rfl, if_neg (by tauto)]
          · intro p hpn
            rw [hcs, if_neg hpn]
        · have hres : highlightLoop t (fuel + 1) n ⟨s, parents, path0⟩ =
              highlightLoop t fuel m
                ⟨f (t.changeState s n .path) n m, parents, path0 ++ [n]⟩ := by
            simp only [highlightLoop, h, hmark, if_pos hpaint]
          rw [hres]
          apply hassemble
          · rw [hmp f hmark, hcs, if_pos rfl, if_neg (by tauto)]
          · intro p hpn
            rw [hmp f hmark, hcs, if_neg hpn]
      · rcases hmark : t.mark_edge_path with _ | f
        · have hres : highlightLoop t (fuel + 1) n ⟨s, parents, path0⟩ =
              highlightLoop t fuel m ⟨s, parents, path0 ++ [n]⟩ := by
            simp only [highlightLoop, h, hmark, if_neg hpaint]
          rw [hres]
          apply hassemble
          · rw [if_pos (by tauto)]
          · intro p hpn
            rfl
        · have hres : highlightLoop t (fuel + 1) n ⟨s, parents, path0⟩ =
              highlightLoop t fuel m ⟨f s n m, parents, path0 ++ [n]⟩ := by
            simp only [highlightLoop, h, hmark, if_neg hpaint]
          rw [hres]
          apply hassemble
          · rw [hmp f hmark, if_pos (by tauto)]
          · intro p hpn
            rw [hmp f hmark]

/-- C6: for an engine bound to a lawful structure whose GOAL exists and whose
parent chain from the GOAL terminates (as it does whenever `found` is true,
claim C9), `highlight_path` paints every chain node PATH except those in
state START or GOAL, whose tags are untouched, leaves all other nodes
untouched and appends the chain to `path`; with no GOAL node the whole engine
state is returned unchanged (no node or edge state mutated). -/
theorem C6_highlight_path {σ ν : Type} [DecidableEq ν] (t : Traversal σ ν)
    (laws : TravLaws t) (fuel : ℕ) (st : WalkState σ ν) :
    (∀ gp c, t.get_goal st.struct = some gp → ParentPath st.parents gp c →
      c.Nodup → c.length ≤ fuel →
      (Algorithm.highlight_path t fuel st).parents = st.parents ∧
      (Algorithm.highlight_path t fuel st).path = st.path ++ c ∧
      (∀ p ∈ c, t.getState (Algorithm.highlight_path t fuel st).struct p =
        if (t.getState st.struct p).is_start = true ∨
            (t.getState st.struct p).is_goal = true
        then t.getState st.struct p else .path) ∧
      (∀ p, p ∉ c → t.getState (Algorithm.highlight_path t fuel st).struct p =
        t.getState st.struct p)) ∧
    (t.get_goal st.struct = none → Algorithm.highlight_path t fuel st = st) := by
  constructor
  · intro gp c hg hc hnd hlen
    have hh := highlightLoop_spec t laws.getState_changeState laws.mark_path_state
      st.parents c gp hc hnd fuel hlen st.struct st.path
    unfold Algorithm.highlight_path
    rw [hg]
    exact hh
  · intro hg
    unfold Algorithm.highlight_path
    rw [hg]

/-- C6 witness: the theorem applied to the 1×3 grid START–ACTIVATED–GOAL with
the chain `(0,2) → (0,1) → (0,0)`: the middle node is painted PATH, the START
node keeps its tag, and the walk appends the whole chain to `path`. -/
theorem C6_witness :
    (Algorithm.highlight_path gridTraversal 3 ⟨gC6, parC6, []⟩).path =
      [] ++ [((0 : ℤ), (2 : ℤ)), (0, 1), (0, 0)] ∧
    gridTraversal.getState
      (Algorithm.highlight_path gridTraversal 3 ⟨gC6, parC6, []⟩).struct (0, 1) =
      .path ∧
    gridTraversal.getState
      (Algorithm.highlight_path gridTraversal 3 ⟨gC6, parC6, []⟩).struct (0, 0) =
      gridTraversal.getState gC6 (0, 0) := by
  have h := (C6_highlight_path gridTraversal gridTravLaws 3 ⟨gC6, parC6, []⟩).1
    (0, 2) [((0 : ℤ), (2 : ℤ)), (0, 1), (0, 0)] (by decide)
    (ParentPath.cons _ _ _ (by decide)
      (ParentPath.cons _ _ _ (by decide) (ParentPath.last _ (by decide))))
    (by decide) (by decide)
  obtain ⟨h1, h2, h3, h4⟩ := h
  refine ⟨h2, ?_, ?_⟩
  · have hx := h3 (0, 1) (by decide)
    rw [hx, if_neg (by decide)]
  · have hx := h3 (0, 0) (by decide)
    rw [hx, if_pos (by decide)]

/-- A START-state tag is neither ACTIVATED nor GOAL. -/
theorem is_start_blocked {s : NodeState} (h : s.is_start = true) :
    s.is_activated = false ∧ s.is_goal = false := by
  cases s <;> simp_all [NodeState.is_start, NodeState.is_activated, NodeState.is_goal]

/-- The all-`none` parents map produced by `reset` has no edges. -/
theorem reset_parents_none {ν : Type} [DecidableEq ν] (start : ν) :
    ∀ z m, Function.update (fun _ : ν => (none : Option ν)) start none z ≠ some m := by
  intro z m
  by_cases hz : z = start
  · subst hz; rw [Function.update_same]; exact fun h => Option.noConfusion h
  · rw [Function.update_noteq hz]; exact fun h => Option.noConfusion h

/-- The empty parents map admits ranks. -/
theorem ranksOk_none {ν : Type} : RanksOk (fun _ : ν => (none : Option ν)) :=
  ⟨fun _ => 0, fun _ _ h => Option.noConfusion h⟩

/-- The reset parents map admits ranks. -/
theorem ranksOk_reset {ν : Type} [DecidableEq ν] (start : ν) :
    RanksOk (Function.update (fun _ : ν => (none : Option ν)) start none) :=
  ⟨fun _ => 0, fun z m h => absurd h (reset_parents_none start z m)⟩

/-- Rank preservation when reassigning the parent of a childless node to a
distinct node. -/
theorem RanksOk.update {ν : Type} [DecidableEq ν] {parents : ν → Option ν}
    (h : RanksOk parents) {nb node : ν}
    (hchild : ∀ z, parents z ≠ some nb) (hne : node ≠ nb) :
    RanksOk (Function.update parents nb (some node)) := by
  obtain ⟨rank, hrank⟩ := h
  refine ⟨Function.update rank nb (rank node + 1), ?_⟩
  intro z m hzm
  by_cases hz : z = nb
  · subst hz
    rw [Function.update_same] at hzm ⊢
    obtain rfl := Option.some.inj hzm
    rw [Function.update_noteq hne]
    omega
  · rw [Function.update_noteq hz] at hzm
    have hm : m ≠ nb := fun hh => hchild z (hh ▸ hzm)
    rw [Function.update_noteq hz, Function.update_noteq hm]
    exact hrank z m hzm

/-- Ranked parent maps have terminating descent. -/
theorem RanksOk.descend_none {ν : Type} {parents : ν → Option ν}
    (h : RanksOk parents) : ∀ n, ∃ j, parentDescend parents j n = none := by
  obtain ⟨rank, hr⟩ := h
  have key : ∀ (k : ℕ) (n : ν), rank n < k →
      ∃ j, parentDescend parents j n = none := by
    intro k
    induction k with
    | zero => intro n hn; omega
    | succ k ih =>
      intro n hn
      rcases hp : parents n with _ | m
      · exact ⟨1, by rw [parentDescend, hp]⟩
      · obtain ⟨j, hj⟩ := ih m (by have := hr n m hp; omega)
        exact ⟨j + 1, by rw [parentDescend, hp]; exact hj⟩
  intro n
  exact key (rank n + 1) n (by omega)

/-- A fold preserves any invariant its folded function preserves. -/
theorem foldl_preserve {α β : Type} {P : β → Prop} {f : β → α → β}
    (h : ∀ b a, P b → P (f b a)) :
    ∀ (l : List α) (b : β), P b → P (l.foldl f b) := by
  intro l
  induction l with
  | nil => intro b hb; exact hb
  | cons a l ih => intro b hb; exact ih (f b a) (h b a hb)

/-- The entry returned by `heappop` is an entry of the heap. -/
theorem heappop_mem {ν : Type} :
    ∀ {l : List (HeapEntry ν)} {e : HeapEntry ν} {rest : List (HeapEntry ν)},
      heappop l = some (e, rest) → e ∈ l := by
  intro l
  induction l with
  | nil => intro e rest h; cases h
  | cons a as ih =>
    intro e rest h
    rw [heappop] at h
    split at h
    · obtain rfl : a = e := congrArg Prod.fst (Option.some.inj h)
      exact List.mem_cons_self a as
    · rename_i m r2 heq
      split at h
      · obtain rfl : a = e := congrArg Prod.fst (Option.some.inj h)
        exact List.mem_cons_self a as
      · obtain rfl : m = e := congrArg Prod.fst (Option.some.inj h)
        exact List.mem_cons_of_mem a (ih heq)

/-- The rest returned by `heappop` is drawn from the heap. -/
theorem heappop_rest_subset {ν : Type} :
    ∀ {l : List (HeapEntry ν)} {e : HeapEntry ν} {rest : List (HeapEntry ν)},
      heappop l = some (e, rest) → ∀ x ∈ rest, x ∈ l := by
  intro l
  induction l with
  | nil => intro e rest h; cases h
  | cons a as ih =>
    intro e rest h
    rw [heappop] at h
    split at h
    · have hrest : ([] : List (HeapEntry ν)) = rest :=
        congrArg Prod.snd (Option.some.inj h)
      rw [← hrest]
      intro x hx
      cases hx
    · rename_i m r2 heq
      split at h
      · have hrest : as = rest := congrArg Prod.snd (Option.some.inj h)
        rw [← hrest]
        intro x hx
        exact List.mem_cons_of_mem a hx
      · have hrest : a :: r2 = rest := congrArg Prod.snd (Option.some.inj h)
        rw [← hrest]
        intro x hx
        rcases List.mem_cons.mp hx with rfl | hx2
        · exact List.mem_cons_self x as
        · exact List.mem_cons_of_mem a (ih heq x hx2)

/-- The BFS neighbor-loop body preserves the parents invariant together with
visitedness of the node being expanded. -/
theorem bfsVisitNeighbor_inv {σ ν : Type} [DecidableEq ν] (t : Traversal σ ν)
    (node : ν) (st : BFSState σ ν) (nb : ν)
    (h : BfsParentsInv st ∧ node ∈ st.visited) :
    BfsParentsInv (bfsVisitNeighbor t node st nb) ∧
    node ∈ (bfsVisitNeighbor t node st nb).visited := by
  obtain ⟨hinv, hnode⟩ := h
  unfold bfsVisitNeighbor
  by_cases hcond : nb ∉ st.visited ∧
      ((t.getState st.struct nb).is_activated ∨ (t.getState st.struct nb).is_goal)
  case pos =>
    rw [if_pos hcond]
    have hnb : nb ∉ st.visited := hcond.1
    have hne : node ≠ nb := fun hh => hnb (hh ▸ hnode)
    have hchild : ∀ z, st.parents z ≠ some nb :=
      fun z hz => hnb (hinv.target_vis z nb hz)
    have hinv2 : ∀ (s2 : σ) (found2 : Bool),
        BfsParentsInv (⟨s2, st.queue ++ [nb], nb :: st.visited,
          Function.update st.parents nb (some node), st.path, found2⟩ :
          BFSState σ ν) := by
      intro s2 found2
      refine ⟨hinv.ranks.update hchild hne, ?_, ?_⟩
      · intro z m hzm
        dsimp only at hzm ⊢
        by_cases hz : z = nb
        · rw [hz, Function.update_same] at hzm
          obtain rfl := Option.some.inj hzm
          exact List.mem_cons_of_mem nb hnode
        · rw [Function.update_noteq hz] at hzm
          exact List.mem_cons_of_mem nb (hinv.target_vis z m hzm)
      · intro z hz
        dsimp only at hz ⊢
        rcases List.mem_append.mp hz with hz | hz
        · exact List.mem_cons_of_mem nb (hinv.frontier_vis z hz)
        · rcases List.mem_singleton.mp hz with rfl
          exact List.mem_cons_self z st.visited
    rcases hm : t.mark_edge_frontier with _ | f <;> simp only [hm] <;> split <;>
      first
      | exact ⟨hinv2 _ _, List.mem_cons_of_mem nb hnode⟩
      | (split <;> exact ⟨hinv2 _ _, List.mem_cons_of_mem nb hnode⟩)
  case neg =>
    rw [if_neg hcond]
    exact ⟨hinv, hnode⟩

/-- One BFS `step` preserves the parents invariant. -/
theorem bfs_step_inv {σ ν : Type} [DecidableEq ν] (t : Traversal σ ν)
    (nbrs : σ → ν → List ν) (st : BFSState σ ν) (hinv : BfsParentsInv st) :
    BfsParentsInv (BFSAlgorithm.step t nbrs st).2 := by
  unfold BFSAlgorithm.step
  split
  case isTrue => exact hinv
  case isFalse hcond =>
    split
    case h_1 => exact hinv
    case h_2 node rest hq =>
      have hnodev : node ∈ st.visited :=
        hinv.frontier_vis node (by rw [hq]; exact List.mem_cons_self node rest)
      have hrest : ∀ z ∈ rest, z ∈ st.visited := fun z hz =>
        hinv.frontier_vis z (by rw [hq]; exact List.mem_cons_of_mem node hz)
      have main : ∀ (s2 : σ),
          BfsParentsInv ((nbrs s2 node).foldl (bfsVisitNeighbor t node)
            ⟨s2, rest, st.visited, st.parents, st.path, st.found⟩) := by
        intro s2
        have hfold := foldl_preserve
          (P := fun st2 : BFSState σ ν => BfsParentsInv st2 ∧ node ∈ st2.visited)
          (f := bfsVisitNeighbor t node)
          (fun b a hb => bfsVisitNeighbor_inv t node b a hb)
          (nbrs s2 node)
          ⟨s2, rest, st.visited, st.parents, st.path, st.found⟩
          ⟨⟨hinv.ranks, hinv.target_vis, hrest⟩, hnodev⟩
        exact hfold.1
      show BfsParentsInv (_, _).2
      split
      · split
        · exact main _
        · exact main _
      · split
        · exact main _
        · exact main _

/-- Iterating an invariant-preserving step preserves the invariant. -/
theorem stepIter_inv {α : Type} {P : α → Prop} {step : α → Bool × α}
    (h : ∀ s, P s → P (step s).2) :
    ∀ (k : ℕ) (s : α), P s → P (stepIter step k s) := by
  intro k
  induction k with
  | zero => intro s hs; exact hs
  | succ k ih => intro s hs; exact ih _ (h s hs)

/-- The BFS reset state satisfies the parents invariant. -/
theorem bfs_reset_inv {σ ν : Type} [DecidableEq ν] (t : Traversal σ ν) (s : σ) :
    BfsParentsInv (BFSAlgorithm.reset t s) := by
  unfold BFSAlgorithm.reset
  rcases hs : t.get_start s with _ | start
  · exact ⟨ranksOk_none, fun z m h => absurd h (fun hh => Option.noConfusion hh),
      fun z hz => absurd hz (List.not_mem_nil z)⟩
  · refine ⟨ranksOk_reset start, ?_, ?_⟩
    · intro z m hz
      exact absurd hz (reset_parents_none start z m)
    · intro z hz
      dsimp only at hz ⊢
      rcases List.mem_singleton.mp hz with rfl
      exact List.mem_singleton.mpr rfl

/-- The DFS neighbor-loop body preserves the parents invariant together with
visitedness of the node being expanded. -/
theorem dfsVisitNeighbor_inv {σ ν : Type} [DecidableEq ν] (t : Traversal σ ν)
    (node : ν) (st : DFSState σ ν) (nb : ν)
    (h : DfsParentsInv st ∧ node ∈ st.visited) :
    DfsParentsInv (dfsVisitNeighbor t node st nb) ∧
    node ∈ (dfsVisitNeighbor t node st nb).visited := by
  obtain ⟨hinv, hnode⟩ := h
  unfold dfsVisitNeighbor
  by_cases hcond : nb ∉ st.visited ∧
      ((t.getState st.struct nb).is_activated ∨ (t.getState st.struct nb).is_goal)
  case pos =>
    rw [if_pos hcond]
    have hnb : nb ∉ st.visited := hcond.1
    have hne : node ≠ nb := fun hh => hnb (hh ▸ hnode)
    have hchild : ∀ z, st.parents z ≠ some nb :=
      fun z hz => hnb (hinv.target_vis z nb hz)
    have hinv2 : ∀ (s2 : σ) (found2 : Bool),
        DfsParentsInv (⟨s2, st.stack ++ [nb], nb :: st.visited,
          Function.update st.parents nb (some node), st.path, found2⟩ :
          DFSState σ ν) := by
      intro s2 found2
      refine ⟨hinv.ranks.update hchild hne, ?_, ?_⟩
      · intro z m hzm
        dsimp only at hzm ⊢
        by_cases hz : z = nb
        · rw [hz, Function.update_same] at hzm
          obtain rfl := Option.some.inj hzm
          exact List.mem_cons_of_mem nb hnode
        · rw [Function.update_noteq hz] at hzm
          exact List.mem_cons_of_mem nb (hinv.target_vis z m hzm)
      · intro z hz
        dsimp only at hz ⊢
        rcases List.mem_append.mp hz with hz | hz
        · exact List.mem_cons_of_mem nb (hinv.frontier_vis z hz)
        · rcases List.mem_singleton.mp hz with rfl
          exact List.mem_cons_self z st.visited
    rcases hm : t.mark_edge_frontier with _ | f <;> simp only [hm] <;> split <;>
      first
      | exact ⟨hinv2 _ _, List.mem_cons_of_mem nb hnode⟩
      | (split <;> exact ⟨hinv2 _ _, List.mem_cons_of_mem nb hnode⟩)
  case neg =>
    rw [if_neg hcond]
    exact ⟨hinv, hnode⟩

/-- One DFS `step` preserves the parents invariant. -/
theorem dfs_step_inv {σ ν : Type} [DecidableEq ν] (t : Traversal σ ν)
    (st : DFSState σ ν) (hinv : DfsParentsInv st) :
    DfsParentsInv (DFSAlgorithm.step t st).2 := by
  unfold DFSAlgorithm.step
  split
  case isTrue => exact hinv
  case isFalse hcond =>
    split
    case h_1 => exact hinv
    case h_2 node hq =>
      have hnodev : node ∈ st.visited :=
        hinv.frontier_vis node (mem_of_getLast? hq)
      have hrest : ∀ z ∈ st.stack.dropLast, z ∈ st.visited := fun z hz =>
        hinv.frontier_vis z (List.dropLast_subset st.stack hz)
      have main : ∀ (s2 : σ),
          DfsParentsInv ((t.get_neighbors s2 node).foldl (dfsVisitNeighbor t node)
            ⟨s2, st.stack.dropLast, st.visited, st.parents, st.path, st.found⟩) := by
        intro s2
        have hfold := foldl_preserve
          (P := fun st2 : DFSState σ ν => DfsParentsInv st2 ∧ node ∈ st2.visited)
          (f := dfsVisitNeighbor t node)
          (fun b a hb => dfsVisitNeighbor_inv t node b a hb)
          (t.get_neighbors s2 node)
          ⟨s2, st.stack.dropLast, st.visited, st.parents, st.path, st.found⟩
          ⟨⟨hinv.ranks, hinv.target_vis, hrest⟩, hnodev⟩
        exact hfold.1
      show DfsParentsInv (_, _).2
      split
      · split
        · exact main _
        · exact main _
      · split
        · exact main _
        · exact main _

/-- The DFS reset state satisfies the parents invariant. -/
theorem dfs_reset_inv {σ ν : Type} [DecidableEq ν] (t : Traversal σ ν) (s : σ) :
    DfsParentsInv (DFSAlgorithm.reset t s) := by
  unfold DFSAlgorithm.reset
  rcases hs : t.get_start s with _ | start
  · exact ⟨ranksOk_none, fun z m h => absurd h (fun hh => Option.noConfusion hh),
      fun z hz => absurd hz (List.not_mem_nil z)⟩
  · refine ⟨ranksOk_reset start, ?_, ?_⟩
    · intro z m hz
      exact absurd hz (reset_parents_none start z m)
    · intro z hz
      dsimp only at hz ⊢
      rcases List.mem_singleton.mp hz with rfl
      exact List.mem_singleton.mpr rfl

/-- The Greedy neighbor-loop body preserves the parents invariant together
with visitedness of the node being expanded. -/
theorem greedyVisitNeighbor_inv {σ ν : Type} [DecidableEq ν] (t : Traversal σ ν)
    (heuristic : ν → ν → ℤ) (node goalNode : ν) (st : GreedyState σ ν) (nb : ν)
    (h : GreedyParentsInv st ∧ node ∈ st.visited) :
    GreedyParentsInv (greedyVisitNeighbor t heuristic node goalNode st nb) ∧
    node ∈ (greedyVisitNeighbor t heuristic node goalNode st nb).visited := by
  obtain ⟨hinv, hnode⟩ := h
  unfold greedyVisitNeighbor
  by_cases hcond : nb ∉ st.visited ∧
      ((t.getState st.struct nb).is_activated ∨ (t.getState st.struct nb).is_goal)
  case pos =>
    rw [if_pos hcond]
    have hnb : nb ∉ st.visited := hcond.1
    have hne : node ≠ nb := fun hh => hnb (hh ▸ hnode)
    have hchild : ∀ z, st.parents z ≠ some nb :=
      fun z hz => hnb (hinv.target_vis z nb hz)
    have hinv2 : ∀ (s2 : σ) (found2 : Bool),
        GreedyParentsInv (⟨s2,
          st.heap ++ [(heuristic nb goalNode, st.counter, nb)], nb :: st.visited,
          Function.update st.parents nb (some node), st.path, found2,
          st.counter + 1, st.goal⟩ : GreedyState σ ν) := by
      intro s2 found2
      refine ⟨hinv.ranks.update hchild hne, ?_, ?_⟩
      · intro z m hzm
        dsimp only at hzm ⊢
        by_cases hz : z = nb
        · rw [hz, Function.update_same] at hzm
          obtain rfl := Option.some.inj hzm
          exact List.mem_cons_of_mem nb hnode
        · rw [Function.update_noteq hz] at hzm
          exact List.mem_cons_of_mem nb (hinv.target_vis z m hzm)
      · intro e he
        dsimp only at he ⊢
        rcases List.mem_append.mp he with he | he
        · exact List.mem_cons_of_mem nb (hinv.frontier_vis e he)
        · rcases List.mem_singleton.mp he with rfl
          exact List.mem_cons_self nb st.visited
    rcases hm : t.mark_edge_frontier with _ | f <;> simp only [hm] <;> split <;>
      first
      | exact ⟨hinv2 _ _, List.mem_cons_of_mem nb hnode⟩
      | (split <;> exact ⟨hinv2 _ _, List.mem_cons_of_mem nb hnode⟩)
  case neg =>
    rw [if_neg hcond]
    exact ⟨hinv, hnode⟩

/-- One Greedy `step` preserves the parents invariant. -/
theorem greedy_step_inv {σ ν : Type} [DecidableEq ν] (t : Traversal σ ν)
    (nbrs : σ → ν → List ν) (heuristic : ν → ν → ℤ) (st : GreedyState σ ν)
    (hinv : GreedyParentsInv st) :
    GreedyParentsInv (GreedyBestFirstAlgorithm.step t nbrs heuristic st).2 := by
  unfold GreedyBestFirstAlgorithm.step
  split
  case isTrue => exact hinv
  case isFalse hcond =>
    split
    case h_1 => exact hinv
    case h_2 e node rest hq =>
      have hmem := heappop_mem hq
      have hnodev : node ∈ st.visited := hinv.frontier_vis _ hmem
      have hrest : ∀ e2 ∈ rest, e2.2.2 ∈ st.visited := fun e2 he2 =>
        hinv.frontier_vis e2 (heappop_rest_subset hq e2 he2)
      have main : ∀ (s2 : σ) (goalNode : ν),
          GreedyParentsInv ((nbrs s2 node).foldl
            (greedyVisitNeighbor t heuristic node goalNode)
            ⟨s2, rest, st.visited, st.parents, st.path, st.found,
              st.counter, st.goal⟩) := by
        intro s2 goalNode
        have hfold := foldl_preserve
          (P := fun st2 : GreedyState σ ν =>
            GreedyParentsInv st2 ∧ node ∈ st2.visited)
          (f := greedyVisitNeighbor t heuristic node goalNode)
          (fun b a hb => greedyVisitNeighbor_inv t heuristic node goalNode b a hb)
          (nbrs s2 node)
          ⟨s2, rest, st.visited, st.parents, st.path, st.found,
            st.counter, st.goal⟩
          ⟨⟨hinv.ranks, hinv.target_vis, hrest⟩, hnodev⟩
        exact hfold.1
      show GreedyParentsInv (_, _).2
      split
      · split
        · exact main _ _
        · exact main _ _
      · split
        · exact main _ _
        · exact main _ _

/-- The Greedy reset state satisfies the parents invariant. -/
theorem greedy_reset_inv {σ ν : Type} [DecidableEq ν] (t : Traversal σ ν)
    (heuristic : ν → ν → ℤ) (s : σ) :
    GreedyParentsInv (GreedyBestFirstAlgorithm.reset t heuristic s) := by
  unfold GreedyBestFirstAlgorithm.reset
  rcases hs : t.get_start s with _ | start <;>
    rcases hg : t.get_goal s with _ | goal
  · exact ⟨ranksOk_none, fun z m h => absurd h (fun hh => Option.noConfusion hh),
      fun e he => absurd he (List.not_mem_nil e)⟩
  · exact ⟨ranksOk_none, fun z m h => absurd h (fun hh => Option.noConfusion hh),
      fun e he => absurd he (List.not_mem_nil e)⟩
  · exact ⟨ranksOk_none, fun z m h => absurd h (fun hh => Option.noConfusion hh),
      fun e he => absurd he (List.not_mem_nil e)⟩
  · refine ⟨ranksOk_reset start, ?_, ?_⟩
    · intro z m hz
      exact absurd hz (reset_parents_none start z m)
    · intro e he
      dsimp only at he ⊢
      rcases List.mem_singleton.mp he with rfl
      exact List.mem_singleton.mpr rfl

/-- States VISITED and FRONTIER are neither ACTIVATED nor GOAL. -/
theorem visited_blocked :
    NodeState.visited.is_activated = false ∧ NodeState.visited.is_goal = false :=
  ⟨rfl, rfl⟩

/-- The Dijkstra relaxation body preserves the parents invariant together
with blockedness of the node being expanded. -/
theorem dijkstraRelax_inv {σ ν : Type} [DecidableEq ν] {t : Traversal σ ν}
    (laws : TravLaws t) (cost : σ → ν → ν → ℤ) (node : ν) (nodeCost : ℤ)
    (st : DijkstraState σ ν) (nb : ν)
    (h : DijkParentsInv t st ∧
      (t.getState st.struct node).is_activated = false ∧
      (t.getState st.struct node).is_goal = false) :
    DijkParentsInv t (dijkstraRelaxNeighbor t cost node nodeCost st nb) ∧
    (t.getState (dijkstraRelaxNeighbor t cost node nodeCost st nb).struct
      node).is_activated = false ∧
    (t.getState (dijkstraRelaxNeighbor t cost node nodeCost st nb).struct
      node).is_goal = false := by
  obtain ⟨hinv, hblock⟩ := h
  unfold dijkstraRelaxNeighbor
  by_cases hguard : (t.getState st.struct nb).is_activated = true ∨
      (t.getState st.struct nb).is_goal = true
  case neg =>
    rw [if_neg hguard]
    exact ⟨hinv, hblock⟩
  case pos =>
    rw [if_pos hguard]
    have hne : nb ≠ node := by
      intro hh
      rw [hh] at hguard
      rcases hguard with hg | hg
      · rw [hblock.1] at hg; cases hg
      · rw [hblock.2] at hg; cases hg
    have hchild : ∀ z, st.parents z ≠ some nb := by
      intro z hz
      have := hinv.target_blocked z nb hz
      rcases hguard with hg | hg
      · rw [this.1] at hg; cases hg
      · rw [this.2] at hg; cases hg
    have key : ∀ (s2 : σ) (found2 : Bool) (new_cost : ℤ),
        (∀ m, m ≠ nb → t.getState s2 m = t.getState st.struct m) →
        (((t.getState s2 nb).is_activated = false ∧
            (t.getState s2 nb).is_goal = false) ∨ found2 = true) →
        (st.found = true → found2 = true) →
        DijkParentsInv t (⟨s2, st.heap ++ [(new_cost, st.counter, nb)],
          st.visited, Function.update st.parents nb (some node), st.path,
          found2, Function.update st.costs nb (some new_cost),
          st.counter + 1⟩ : DijkstraState σ ν) ∧
        (t.getState s2 node).is_activated = false ∧
        (t.getState s2 node).is_goal = false := by
      intro s2 found2 new_cost hsame hnb hfound
      have hnodesame : t.getState s2 node = t.getState st.struct node :=
        hsame node (fun hh => hne hh.symm)
      refine ⟨⟨hinv.ranks.update hchild (fun hh => hne hh.symm), ?_, ?_, ?_⟩,
        ?_, ?_⟩
      · intro z m hzm
        dsimp only at hzm ⊢
        by_cases hz : z = nb
        · rw [hz, Function.update_same] at hzm
          obtain rfl := Option.some.inj hzm
          rw [hnodesame]
          exact hblock
        · rw [Function.update_noteq hz] at hzm
          have hm : m ≠ nb := fun hh => hchild z (hh ▸ hzm)
          rw [hsame m hm]
          exact hinv.target_blocked z m hzm
      · intro n hgoal hcost
        dsimp only at hgoal hcost ⊢
        by_cases hn : n = nb
        · rcases hnb with hbl | hf
          · rw [hn, hbl.2] at hgoal; cases hgoal
          · exact hf
        · rw [hsame n hn] at hgoal
          rw [Function.update_noteq hn] at hcost
          exact hfound (hinv.goal_found n hgoal hcost)
      · intro e he
        dsimp only at he ⊢
        rcases List.mem_append.mp he with he | he
        · by_cases hc : e.2.2 = nb
          · rw [hc, Function.update_same]
            exact fun hh => Option.noConfusion hh
          · rw [Function.update_noteq hc]
            exact hinv.heap_costs e he
        · rcases List.mem_singleton.mp he with rfl
          dsimp only
          rw [Function.update_same]
          exact fun hh => Option.noConfusion hh
      · rw [hnodesame]; exact hblock.1
      · rw [hnodesame]; exact hblock.2
    rcases hcost : st.costs nb with _ | c0
    · simp only [hcost]
      rw [if_pos trivial]
      by_cases hgoal2 : (t.getState st.struct nb).is_goal = true
      · rw [if_pos hgoal2]
        rcases hm : t.mark_edge_frontier with _ | f <;> simp only [hm]
        · exact key st.struct true _ (fun m _ => rfl) (Or.inr rfl) (fun _ => rfl)
        · exact key (f st.struct node nb) true _
            (fun m _ => laws.mark_frontier_state f hm st.struct node nb m)
            (Or.inr rfl) (fun _ => rfl)
      · rw [if_neg hgoal2]
        have hact : (t.getState st.struct nb).is_activated = true := by
          rcases hguard with hg | hg
          · exact hg
          · exact absurd hg hgoal2
        rw [if_pos hact]
        rcases hm : t.mark_edge_frontier with _ | f <;> simp only [hm]
        · refine key (t.changeState st.struct nb .frontier) st.found _
            (fun m hmne => by rw [laws.getState_changeState, if_neg hmne])
            (Or.inl ?_) (fun hh => hh)
          rw [laws.getState_changeState, if_pos rfl]
          exact ⟨rfl, rfl⟩
        · refine key (f (t.changeState st.struct nb .frontier) node nb) st.found _
            (fun m hmne => by
              rw [laws.mark_frontier_state f hm, laws.getState_changeState,
                if_neg hmne])
            (Or.inl ?_) (fun hh => hh)
          rw [laws.mark_frontier_state f hm, laws.getState_changeState, if_pos rfl]
          exact ⟨rfl, rfl⟩
    · simp only [hcost]
      by_cases hlt : nodeCost + cost st.struct node nb < c0
      · rw [if_pos (by simpa using hlt)]
        by_cases hgoal2 : (t.getState st.struct nb).is_goal = true
        · rw [if_pos hgoal2]
          rcases hm : t.mark_edge_frontier with _ | f <;> simp only [hm]
          · exact key st.struct true _ (fun m _ => rfl) (Or.inr rfl) (fun _ => rfl)
          · exact key (f st.struct node nb) true _
              (fun m _ => laws.mark_frontier_state f hm st.struct node nb m)
              (Or.inr rfl) (fun _ => rfl)
        · rw [if_neg hgoal2]
          have hact : (t.getState st.struct nb).is_activated = true := by
            rcases hguard with hg | hg
            · exact hg
            · exact absurd hg hgoal2
          rw [if_pos hact]
          rcases hm : t.mark_edge_frontier with _ | f <;> simp only [hm]
          · refine key (t.changeState st.struct nb .frontier) st.found _
              (fun m hmne => by rw [laws.getState_changeState, if_neg hmne])
              (Or.inl ?_) (fun hh => hh)
            rw [laws.getState_changeState, if_pos rfl]
            exact ⟨rfl, rfl⟩
          · refine key (f (t.changeState st.struct nb .frontier) node nb) st.found _
              (fun m hmne => by
                rw [laws.mark_frontier_state f hm, laws.getState_changeState,
                  if_neg hmne])
              (Or.inl ?_) (fun hh => hh)
            rw [laws.mark_frontier_state f hm, laws.getState_changeState,
              if_pos rfl]
            exact ⟨rfl, rfl⟩
      · rw [if_neg (by simpa using hlt)]
        exact ⟨hinv, hblock⟩

/-- One Dijkstra `step` preserves the parents invariant. -/
theorem dijkstra_step_inv {σ ν : Type} [DecidableEq ν] {t : Traversal σ ν}
    (laws : TravLaws t) (nbrs : σ → ν → List ν) (cost : σ → ν → ν → ℤ)
    (st : DijkstraState σ ν) (hinv : DijkParentsInv t st) :
    DijkParentsInv t (DijkstraAlgorithm.step t nbrs cost st).2 := by
  unfold DijkstraAlgorithm.step
  split
  case isTrue => exact hinv
  case isFalse hcond =>
    split
    case h_1 => exact hinv
    case h_2 e c cnt node rest hq =>
      have hfound : st.found = false := by
        rcases hf : st.found with _ | _
        · rfl
        · exact absurd (Or.inr hf) hcond
      have hmem := heappop_mem hq
      have hcostnode : st.costs node ≠ none := hinv.heap_costs _ hmem
      have hngoal : (t.getState st.struct node).is_goal = false := by
        rcases hg : (t.getState st.struct node).is_goal with _ | _
        · rfl
        · have := hinv.goal_found node hg hcostnode
          rw [this] at hfound; cases hfound
      have key2 : ∀ (s2 : σ),
          (∀ m, m ≠ node → t.getState s2 m = t.getState st.struct m) →
          ((t.getState s2 node).is_activated = false ∧
            (t.getState s2 node).is_goal = false) →
          DijkParentsInv t ((nbrs s2 node).foldl
            (dijkstraRelaxNeighbor t cost node c)
            ⟨s2, rest, st.visited, st.parents, st.path, st.found,
              st.costs, st.counter⟩) := by
        intro s2 hsame hblock
        have hstart : DijkParentsInv t (⟨s2, rest, st.visited, st.parents,
            st.path, st.found, st.costs, st.counter⟩ : DijkstraState σ ν) := by
          refine ⟨hinv.ranks, ?_, ?_, ?_⟩
          · intro z m hzm
            dsimp only at hzm ⊢
            by_cases hm2 : m = node
            · rw [hm2]; exact hblock
            · rw [hsame m hm2]
              exact hinv.target_blocked z m hzm
          · intro n hgoal hcost
            dsimp only at hgoal hcost ⊢
            by_cases hn : n = node
            · rw [hn, hblock.2] at hgoal; cases hgoal
            · rw [hsame n hn] at hgoal
              exact hinv.goal_found n hgoal hcost
          · intro e2 he2
            dsimp only at he2 ⊢
            exact hinv.heap_costs e2 (heappop_rest_subset hq e2 he2)
        have hfold := foldl_preserve
          (P := fun st2 : DijkstraState σ ν => DijkParentsInv t st2 ∧
            (t.getState st2.struct node).is_activated = false ∧
            (t.getState st2.struct node).is_goal = false)
          (f := dijkstraRelaxNeighbor t cost node c)
          (fun b a hb => dijkstraRelax_inv laws cost node c b a hb)
          (nbrs s2 node)
          ⟨s2, rest, st.visited, st.parents, st.path, st.found,
            st.costs, st.counter⟩
          ⟨hstart, hblock⟩
        exact hfold.1
      show DijkParentsInv t (_, _).2
      rcases hpar : st.parents node with _ | parent <;>
        rcases hm : t.mark_edge_visited with _ | f <;>
          simp only [hpar, hm] <;>
          [skip; skip; skip; skip] <;>
          by_cases hpaint : ¬(t.getState st.struct node).is_start = true ∧
            ¬(t.getState st.struct node).is_goal = true
      · rw [if_pos hpaint]
        exact key2 (t.changeState st.struct node .visited)
          (fun m hm2 => by rw [laws.getState_changeState, if_neg hm2])
          (by rw [laws.getState_changeState, if_pos rfl]; exact visited_blocked)
      · rw [if_neg hpaint]
        have hstart2 : (t.getState st.struct node).is_start = true := by
          by_cases hs2 : (t.getState st.struct node).is_start = true
          · exact hs2
          · exact absurd ⟨hs2, by rw [hngoal]; exact fun hh => Bool.noConfusion hh⟩
              hpaint
        exact key2 st.struct (fun m _ => rfl) (is_start_blocked hstart2)
      · rw [if_pos hpaint]
        exact key2 (t.changeState st.struct node .visited)
          (fun m hm2 => by rw [laws.getState_changeState, if_neg hm2])
          (by rw [laws.getState_changeState, if_pos rfl]; exact visited_blocked)
      · rw [if_neg hpaint]
        have hstart2 : (t.getState st.struct node).is_start = true := by
          by_cases hs2 : (t.getState st.struct node).is_start = true
          · exact hs2
          · exact absurd ⟨hs2, by rw [hngoal]; exact fun hh => Bool.noConfusion hh⟩
              hpaint
        exact key2 st.struct (fun m _ => rfl) (is_start_blocked hstart2)
      · rw [if_pos hpaint]
        exact key2 (t.changeState st.struct node .visited)
          (fun m hm2 => by rw [laws.getState_changeState, if_neg hm2])
          (by rw [laws.getState_changeState, if_pos rfl]; exact visited_blocked)
      · rw [if_neg hpaint]
        have hstart2 : (t.getState st.struct node).is_start = true := by
          by_cases hs2 : (t.getState st.struct node).is_start = true
          · exact hs2
          · exact absurd ⟨hs2, by rw [hngoal]; exact fun hh => Bool.noConfusion hh⟩
              hpaint
        exact key2 st.struct (fun m _ => rfl) (is_start_blocked hstart2)
      · have hsame : ∀ m, m ≠ node →
            t.getState (f st.struct parent node) m = t.getState st.struct m :=
          fun m _ => laws.mark_visited_state f hm st.struct parent node m
        have hall : ∀ m, t.getState (f st.struct parent node) m =
            t.getState st.struct m :=
          fun m => laws.mark_visited_state f hm st.struct parent node m
        rw [if_pos (by rw [hall]; exact hpaint)]
        exact key2 (t.changeState (f st.struct parent node) node .visited)
          (fun m hm2 => by
            rw [laws.getState_changeState, if_neg hm2, hall])
          (by rw [laws.getState_changeState, if_pos rfl]; exact visited_blocked)
      · have hall : ∀ m, t.getState (f st.struct parent node) m =
            t.getState st.struct m :=
          fun m => laws.mark_visited_state f hm st.struct parent node m
        rw [if_neg (by rw [hall]; exact hpaint)]
        have hstart2 : (t.getState st.struct node).is_start = true := by
          by_cases hs2 : (t.getState st.struct node).is_start = true
          · exact hs2
          · exact absurd ⟨hs2, by rw [hngoal]; exact fun hh => Bool.noConfusion hh⟩
              hpaint
        exact key2 (f st.struct parent node) (fun m _ => hall m)
          (by rw [hall node]; exact is_start_blocked hstart2)

/-- The Dijkstra reset state satisfies the parents invariant. -/
theorem dijkstra_reset_inv {σ ν : Type} [DecidableEq ν] {t : Traversal σ ν}
    (laws : TravLaws t) (s : σ) :
    DijkParentsInv t (DijkstraAlgorithm.reset t s) := by
  unfold DijkstraAlgorithm.reset
  rcases hs : t.get_start s with _ | start
  · exact ⟨ranksOk_none, fun z m h => absurd h (fun hh => Option.noConfusion hh),
      fun n hg hc => absurd rfl hc, fun e he => absurd he (List.not_mem_nil e)⟩
  · refine ⟨ranksOk_reset start, ?_, ?_, ?_⟩
    · intro z m hz
      exact absurd hz (reset_parents_none start z m)
    · intro n hgoal hcost
      dsimp only at hgoal hcost ⊢
      by_cases hn : n = start
      · have hstart := laws.start_is_start s start hs
        rw [hn, (is_start_blocked hstart).2] at hgoal
        cases hgoal
      · rw [Function.update_noteq hn] at hcost
        exact absurd rfl hcost
    · intro e he
      dsimp only at he ⊢
      rcases List.mem_singleton.mp he with rfl
      dsimp only
      rw [Function.update_same]
      exact fun hh => Option.noConfusion hh

/-- The A* relaxation body preserves the parents invariant together with
blockedness of the node being expanded. -/
theorem astarRelax_inv {σ ν : Type} [DecidableEq ν] {t : Traversal σ ν}
    (laws : TravLaws t) (cost : σ → ν → ν → ℤ) (heuristic : ν → ν → ℤ)
    (node : ν) (nodeCost : ℤ) (goalNode : ν) (st : AStarState σ ν) (nb : ν)
    (h : AStarParentsInv t st ∧
      (t.getState st.struct node).is_activated = false ∧
      (t.getState st.struct node).is_goal = false) :
    AStarParentsInv t
      (astarRelaxNeighbor t cost heuristic node nodeCost goalNode st nb) ∧
    (t.getState
      (astarRelaxNeighbor t cost heuristic node nodeCost goalNode st nb).struct
      node).is_activated = false ∧
    (t.getState
      (astarRelaxNeighbor t cost heuristic node nodeCost goalNode st nb).struct
      node).is_goal = false := by
  obtain ⟨hinv, hblock⟩ := h
  unfold astarRelaxNeighbor
  by_cases hguard : (t.getState st.struct nb).is_activated = true ∨
      (t.getState st.struct nb).is_goal = true
  case neg =>
    rw [if_neg hguard]
    exact ⟨hinv, hblock⟩
  case pos =>
    rw [if_pos hguard]
    have hne : nb ≠ node := by
      intro hh
      rw [hh] at hguard
      rcases hguard with hg | hg
      · rw [hblock.1] at hg; cases hg
      · rw [hblock.2] at hg; cases hg
    have hchild : ∀ z, st.parents z ≠ some nb := by
      intro z hz
      have := hinv.target_blocked z nb hz
      rcases hguard with hg | hg
      · rw [this.1] at hg; cases hg
      · rw [this.2] at hg; cases hg
    have key : ∀ (s2 : σ) (found2 : Bool) (prio new_cost : ℤ),
        (∀ m, m ≠ nb → t.getState s2 m = t.getState st.struct m) →
        (((t.getState s2 nb).is_activated = false ∧
            (t.getState s2 nb).is_goal = false) ∨ found2 = true) →
        (st.found = true → found2 = true) →
        AStarParentsInv t (⟨s2, st.heap ++ [(prio, st.counter, nb)],
          st.visited, Function.update st.parents nb (some node), st.path,
          found2, Function.update st.costs nb (some new_cost),
          st.counter + 1, st.goal⟩ : AStarState σ ν) ∧
        (t.getState s2 node).is_activated = false ∧
        (t.getState s2 node).is_goal = false := by
      intro s2 found2 prio new_cost hsame hnb hfound
      have hnodesame : t.getState s2 node = t.getState st.struct node :=
        hsame node (fun hh => hne hh.symm)
      refine ⟨⟨hinv.ranks.update hchild (fun hh => hne hh.symm), ?_, ?_, ?_⟩,
        ?_, ?_⟩
      · intro z m hzm
        dsimp only at hzm ⊢
        by_cases hz : z = nb
        · rw [hz, Function.update_same] at hzm
          obtain rfl := Option.some.inj hzm
          rw [hnodesame]
          exact hblock
        · rw [Function.update_noteq hz] at hzm
          have hm : m ≠ nb := fun hh => hchild z (hh ▸ hzm)
          rw [hsame m hm]
          exact hinv.target_blocked z m hzm
      · intro n hgoal hcost
        dsimp only at hgoal hcost ⊢
        by_cases hn : n = nb
        · rcases hnb with hbl | hf
          · rw [hn, hbl.2] at hgoal; cases hgoal
          · exact hf
        · rw [hsame n hn] at hgoal
          rw [Function.update_noteq hn] at hcost
          exact hfound (hinv.goal_found n hgoal hcost)
      · intro e he
        dsimp only at he ⊢
        rcases List.mem_append.mp he with he | he
        · by_cases hc : e.2.2 = nb
          · rw [hc, Function.update_same]
            exact fun hh => Option.noConfusion hh
          · rw [Function.update_noteq hc]
            exact hinv.heap_costs e he
        · rcases List.mem_singleton.mp he with rfl
          dsimp only
          rw [Function.update_same]
          exact fun hh => Option.noConfusion hh
      · rw [hnodesame]; exact hblock.1
      · rw [hnodesame]; exact hblock.2
    rcases hcost : st.costs nb with _ | c0
    · simp only [hcost]
      rw [if_pos trivial]
      by_cases hgoal2 : (t.getState st.struct nb).is_goal = true
      · rw [if_pos hgoal2]
        rcases hm : t.mark_edge_frontier with _ | f <;> simp only [hm]
        · exact key st.struct true _ _ (fun m _ => rfl) (Or.inr rfl) (fun _ => rfl)
        · exact key (f st.struct node nb) true _ _
            (fun m _ => laws.mark_frontier_state f hm st.struct node nb m)
            (Or.inr rfl) (fun _ => rfl)
      · rw [if_neg hgoal2]
        have hact : (t.getState st.struct nb).is_activated = true := by
          rcases hguard with hg | hg
          · exact hg
          · exact absurd hg hgoal2
        rw [if_pos hact]
        rcases hm : t.mark_edge_frontier with _ | f <;> simp only [hm]
        · refine key (t.changeState st.struct nb .frontier) st.found _ _
            (fun m hmne => by rw [laws.getState_changeState, if_neg hmne])
            (Or.inl ?_) (fun hh => hh)
          rw [laws.getState_changeState, if_pos rfl]
          exact ⟨rfl, rfl⟩
        · refine key (f (t.changeState st.struct nb .frontier) node nb) st.found _ _
            (fun m hmne => by
              rw [laws.mark_frontier_state f hm, laws.getState_changeState,
                if_neg hmne])
            (Or.inl ?_) (fun hh => hh)
          rw [laws.mark_frontier_state f hm, laws.getState_changeState, if_pos rfl]
          exact ⟨rfl, rfl⟩
    · simp only [hcost]
      by_cases hlt : nodeCost + cost st.struct node nb < c0
      · rw [if_pos (by simpa using hlt)]
        by_cases hgoal2 : (t.getState st.struct nb).is_goal = true
        · rw [if_pos hgoal2]
          rcases hm : t.mark_edge_frontier with _ | f <;> simp only [hm]
          · exact key st.struct true _ _ (fun m _ => rfl) (Or.inr rfl)
              (fun _ => rfl)
          · exact key (f st.struct node nb) true _ _
              (fun m _ => laws.mark_frontier_state f hm st.struct node nb m)
              (Or.inr rfl) (fun _ => rfl)
        · rw [if_neg hgoal2]
          have hact : (t.getState st.struct nb).is_activated = true := by
            rcases hguard with hg | hg
            · exact hg
            · exact absurd hg hgoal2
          rw [if_pos hact]
          rcases hm : t.mark_edge_frontier with _ | f <;> simp only [hm]
          · refine key (t.changeState st.struct nb .frontier) st.found _ _
              (fun m hmne => by rw [laws.getState_changeState, if_neg hmne])
              (Or.inl ?_) (fun hh => hh)
            rw [laws.getState_changeState, if_pos rfl]
            exact ⟨rfl, rfl⟩
          · refine key (f (t.changeState st.struct nb .frontier) node nb)
              st.found _ _
              (fun m hmne => by
                rw [laws.mark_frontier_state f hm, laws.getState_changeState,
                  if_neg hmne])
              (Or.inl ?_) (fun hh => hh)
            rw [laws.mark_frontier_state f hm, laws.getState_changeState,
              if_pos rfl]
            exact ⟨rfl, rfl⟩
      · rw [if_neg (by simpa using hlt)]
        exact ⟨hinv, hblock⟩

/-- One A* step preserves the parents invariant. -/
theorem astar_step_inv {σ ν : Type} [DecidableEq ν] {t : Traversal σ ν}
    (laws : TravLaws t) (nbrs : σ → ν → List ν) (cost : σ → ν → ν → ℤ)
    (heuristic : ν → ν → ℤ) (st : AStarState σ ν)
    (hinv : AStarParentsInv t st) :
    AStarParentsInv t (AStarAlgorithm.step t nbrs cost heuristic st).2 := by
  unfold AStarAlgorithm.step
  split
  case isTrue => exact hinv
  case isFalse hcond =>
    split
    case h_1 => exact hinv
    case h_2 e c cnt node rest hq =>
      have hfound : st.found = false := by
        rcases hf : st.found with _ | _
        · rfl
        · exact absurd (Or.inr hf) hcond
      have hmem := heappop_mem hq
      have hcostnode : st.costs node ≠ none := hinv.heap_costs _ hmem
      have hngoal : (t.getState st.struct node).is_goal = false := by
        rcases hg : (t.getState st.struct node).is_goal with _ | _
        · rfl
        · have := hinv.goal_found node hg hcostnode
          rw [this] at hfound; cases hfound
      have key2 : ∀ (s2 : σ) (nc : ℤ) (gn : ν),
          (∀ m, m ≠ node → t.getState s2 m = t.getState st.struct m) →
          ((t.getState s2 node).is_activated = false ∧
            (t.getState s2 node).is_goal = false) →
          AStarParentsInv t ((nbrs s2 node).foldl
            (astarRelaxNeighbor t cost heuristic node nc gn)
            ⟨s2, rest, st.visited, st.parents, st.path, st.found,
              st.costs, st.counter, st.goal⟩) := by
        intro s2 nc gn hsame hblock
        have hstart : AStarParentsInv t (⟨s2, rest, st.visited, st.parents,
            st.path, st.found, st.costs, st.counter, st.goal⟩ :
              AStarState σ ν) := by
          refine ⟨hinv.ranks, ?_, ?_, ?_⟩
          · intro z m hzm
            dsimp only at hzm ⊢
            by_cases hm2 : m = node
            · rw [hm2]; exact hblock
            · rw [hsame m hm2]
              exact hinv.target_blocked z m hzm
          · intro n hgoal hcost
            dsimp only at hgoal hcost ⊢
            by_cases hn : n = node
            · rw [hn, hblock.2] at hgoal; cases hgoal
            · rw [hsame n hn] at hgoal
              exact hinv.goal_found n hgoal hcost
          · intro e2 he2
            dsimp only at he2 ⊢
            exact hinv.heap_costs e2 (heappop_rest_subset hq e2 he2)
        have hfold := foldl_preserve
          (P := fun st2 : AStarState σ ν => AStarParentsInv t st2 ∧
            (t.getState st2.struct node).is_activated = false ∧
            (t.getState st2.struct node).is_goal = false)
          (f := astarRelaxNeighbor t cost heuristic node nc gn)
          (fun b a hb => astarRelax_inv laws cost heuristic node nc gn b a hb)
          (nbrs s2 node)
          ⟨s2, rest, st.visited, st.parents, st.path, st.found,
            st.costs, st.counter, st.goal⟩
          ⟨hstart, hblock⟩
        exact hfold.1
      show AStarParentsInv t (_, _).2
      rcases hpar : st.parents node with _ | parent <;>
        rcases hm : t.mark_edge_visited with _ | f <;>
          simp only [hpar, hm] <;>
          [skip; skip; skip; skip] <;>
          by_cases hpaint : ¬(t.getState st.struct node).is_start = true ∧
            ¬(t.getState st.struct node).is_goal = true
      · rw [if_pos hpaint]
        exact key2 (t.changeState st.struct node .visited) _ _
          (fun m hm2 => by rw [laws.getState_changeState, if_neg hm2])
          (by rw [laws.getState_changeState, if_pos rfl]; exact visited_blocked)
      · rw [if_neg hpaint]
        have hstart2 : (t.getState st.struct node).is_start = true := by
          by_cases hs2 : (t.getState st.struct node).is_start = true
          · exact hs2
          · exact absurd ⟨hs2, by rw [hngoal]; exact fun hh => Bool.noConfusion hh⟩
              hpaint
        exact key2 st.struct _ _ (fun m _ => rfl) (is_start_blocked hstart2)
      · rw [if_pos hpaint]
        exact key2 (t.changeState st.struct node .visited) _ _
          (fun m hm2 => by rw [laws.getState_changeState, if_neg hm2])
          (by rw [laws.getState_changeState, if_pos rfl]; exact visited_blocked)
      · rw [if_neg hpaint]
        have hstart2 : (t.getState st.struct node).is_start = true := by
          by_cases hs2 : (t.getState st.struct node).is_start = true
          · exact hs2
          · exact absurd ⟨hs2, by rw [hngoal]; exact fun hh => Bool.noConfusion hh⟩
              hpaint
        exact key2 st.struct _ _ (fun m _ => rfl) (is_start_blocked hstart2)
      · rw [if_pos hpaint]
        exact key2 (t.changeState st.struct node .visited) _ _
          (fun m hm2 => by rw [laws.getState_changeState, if_neg hm2])
          (by rw [laws.getState_changeState, if_pos rfl]; exact visited_blocked)
      · rw [if_neg hpaint]
        have hstart2 : (t.getState st.struct node).is_start = true := by
          by_cases hs2 : (t.getState st.struct node).is_start = true
          · exact hs2
          · exact absurd ⟨hs2, by rw [hngoal]; exact fun hh => Bool.noConfusion hh⟩
              hpaint
        exact key2 st.struct _ _ (fun m _ => rfl) (is_start_blocked hstart2)
      · have hall : ∀ m, t.getState (f st.struct parent node) m =
            t.getState st.struct m :=
          fun m => laws.mark_visited_state f hm st.struct parent node m
        rw [if_pos (by rw [hall]; exact hpaint)]
        exact key2 (t.changeState (f st.struct parent node) node .visited) _ _
          (fun m hm2 => by
            rw [laws.getState_changeState, if_neg hm2, hall])
          (by rw [laws.getState_changeState, if_pos rfl]; exact visited_blocked)
      · have hall : ∀ m, t.getState (f st.struct parent node) m =
            t.getState st.struct m :=
          fun m => laws.mark_visited_state f hm st.struct parent node m
        rw [if_neg (by rw [hall]; exact hpaint)]
        have hstart2 : (t.getState st.struct node).is_start = true := by
          by_cases hs2 : (t.getState st.struct node).is_start = true
          · exact hs2
          · exact absurd ⟨hs2, by rw [hngoal]; exact fun hh => Bool.noConfusion hh⟩
              hpaint
        exact key2 (f st.struct parent node) _ _ (fun m _ => hall m)
          (by rw [hall node]; exact is_start_blocked hstart2)

/-- The A* reset state satisfies the parents invariant. -/
theorem astar_reset_inv {σ ν : Type} [DecidableEq ν] {t : Traversal σ ν}
    (laws : TravLaws t) (s : σ) :
    AStarParentsInv t (AStarAlgorithm.reset t s) := by
  unfold AStarAlgorithm.reset
  rcases hs : t.get_start s with _ | start <;>
    rcases hg : t.get_goal s with _ | goal
  · exact ⟨ranksOk_none, fun z m h => absurd h (fun hh => Option.noConfusion hh),
      fun n hgo hc => absurd rfl hc, fun e he => absurd he (List.not_mem_nil e)⟩
  · exact ⟨ranksOk_none, fun z m h => absurd h (fun hh => Option.noConfusion hh),
      fun n hgo hc => absurd rfl hc, fun e he => absurd he (List.not_mem_nil e)⟩
  · exact ⟨ranksOk_none, fun z m h => absurd h (fun hh => Option.noConfusion hh),
      fun n hgo hc => absurd rfl hc, fun e he => absurd he (List.not_mem_nil e)⟩
  · refine ⟨ranksOk_reset start, ?_, ?_, ?_⟩
    · intro z m hz
      exact absurd hz (reset_parents_none start z m)
    · intro n hgoal hcost
      dsimp only at hgoal hcost ⊢
      by_cases hn : n = start
      · have hstart := laws.start_is_start s start hs
        rw [hn, (is_start_blocked hstart).2] at hgoal
        cases hgoal
      · rw [Function.update_noteq hn] at hcost
        exact absurd rfl hcost
    · intro e he
      dsimp only at he ⊢
      rcases List.mem_singleton.mp he with rfl
      dsimp only
      rw [Function.update_same]
      exact fun hh => Option.noConfusion hh

/-- C9: in every state reachable by a `reset` followed by any number of `step`
calls on any of the five engine variants (over any traversal structure obeying
the interface laws, so in particular over grids and graphs), following parent
pointers from any node reaches, in finitely many steps, a node with no parent
entry; hence the backward walk of `highlight_path` always terminates. -/
theorem C9_parents_acyclic {σ ν : Type} [DecidableEq ν] {t : Traversal σ ν}
    (laws : TravLaws t) (nbrs : σ → ν → List ν) (cost : σ → ν → ν → ℤ)
    (heuristic : ν → ν → ℤ) (s : σ) (k : ℕ) :
    (∀ n, ∃ j, parentDescend
      (stepIter (BFSAlgorithm.step t nbrs) k (BFSAlgorithm.reset t s)).parents
      j n = none) ∧
    (∀ n, ∃ j, parentDescend
      (stepIter (DFSAlgorithm.step t) k (DFSAlgorithm.reset t s)).parents
      j n = none) ∧
    (∀ n, ∃ j, parentDescend
      (stepIter (DijkstraAlgorithm.step t nbrs cost) k
        (DijkstraAlgorithm.reset t s)).parents j n = none) ∧
    (∀ n, ∃ j, parentDescend
      (stepIter (AStarAlgorithm.step t nbrs cost heuristic) k
        (AStarAlgorithm.reset t s)).parents j n = none) ∧
    (∀ n, ∃ j, parentDescend
      (stepIter (GreedyBestFirstAlgorithm.step t nbrs heuristic) k
        (GreedyBestFirstAlgorithm.reset t heuristic s)).parents j n = none) := by
  refine ⟨?_, ?_, ?_, ?_, ?_⟩
  · exact fun n => RanksOk.descend_none
      (stepIter_inv (fun st h => bfs_step_inv t nbrs st h) k _
        (bfs_reset_inv t s)).ranks n
  · exact fun n => RanksOk.descend_none
      (stepIter_inv (fun st h => dfs_step_inv t st h) k _
        (dfs_reset_inv t s)).ranks n
  · exact fun n => RanksOk.descend_none
      (stepIter_inv (fun st h => dijkstra_step_inv laws nbrs cost st h) k _
        (dijkstra_reset_inv laws s)).ranks n
  · exact fun n => RanksOk.descend_none
      (stepIter_inv (fun st h => astar_step_inv laws nbrs cost heuristic st h) k _
        (astar_reset_inv laws s)).ranks n
  · exact fun n => RanksOk.descend_none
      (stepIter_inv (fun st h => greedy_step_inv t nbrs heuristic st h) k _
        (greedy_reset_inv t heuristic s)).ranks n

/-- Witness instantiating `C9_parents_acyclic` on the concrete 5-by-5 grid. -/
theorem C9_parents_acyclic_witness :
    (∀ n, ∃ j, parentDescend
      (stepIter (BFSAlgorithm.step gridTraversal Grid.get_neighbors) 3
        (BFSAlgorithm.reset gridTraversal g5)).parents j n = none) ∧
    (∀ n, ∃ j, parentDescend
      (stepIter (DFSAlgorithm.step gridTraversal) 3
        (DFSAlgorithm.reset gridTraversal g5)).parents j n = none) ∧
    (∀ n, ∃ j, parentDescend
      (stepIter (DijkstraAlgorithm.step gridTraversal Grid.get_neighbors
        Grid.get_moving_cost) 3
        (DijkstraAlgorithm.reset gridTraversal g5)).parents j n = none) ∧
    (∀ n, ∃ j, parentDescend
      (stepIter (AStarAlgorithm.step gridTraversal Grid.get_neighbors
        Grid.get_moving_cost manhattan_heuristic) 3
        (AStarAlgorithm.reset gridTraversal g5)).parents j n = none) ∧
    (∀ n, ∃ j, parentDescend
      (stepIter (GreedyBestFirstAlgorithm.step gridTraversal Grid.get_neighbors
        manhattan_heuristic) 3
        (GreedyBestFirstAlgorithm.reset gridTraversal manhattan_heuristic
          g5)).parents j n = none) :=
  C9_parents_acyclic gridTravLaws Grid.get_neighbors Grid.get_moving_cost
    manhattan_heuristic g5 3

/-- Componentwise characterization of grid 4-adjacency. -/
theorem adjacent_mk {p1 p2 q1 q2 : ℤ} :
    adjacent (p1, p2) (q1, q2) ↔
      (q1 = p1 + 1 ∧ q2 = p2) ∨ (q1 = p1 - 1 ∧ q2 = p2) ∨
      (q1 = p1 ∧ q2 = p2 + 1) ∨ (q1 = p1 ∧ q2 = p2 - 1) := by
  unfold adjacent
  dsimp only
  rcases abs_cases (p1 - q1) with ⟨h1, h1b⟩ | ⟨h1, h1b⟩ <;>
    rcases abs_cases (p2 - q2) with ⟨h2, h2b⟩ | ⟨h2, h2b⟩ <;>
      rw [h1, h2] <;> omega

/-- Adjacency is symmetric. -/
theorem adjacent_symm {p q : Pos} (h : adjacent p q) : adjacent q p := by
  unfold adjacent at h ⊢
  rw [abs_sub_comm q.1 p.1, abs_sub_comm q.2 p.2]
  exact h

/-- No cell is adjacent to itself. -/
theorem adjacent_irrefl (p : Pos) : ¬adjacent p p := by
  unfold adjacent
  simp

/-- Pointwise description of a cell-state write. -/
theorem Grid.state_set (g : Grid) (p : Pos) (st : NodeState) (q : Pos) :
    ((g.setCellState p st).cells q).state =
      if q = p then st else (g.cells q).state := by
  unfold Grid.setCellState
  dsimp only
  rw [Function.update_apply]
  by_cases h : q = p <;> simp [h]

/-- Pointwise description of the two writes a maze carve performs. -/
theorem carve_state (g : Grid) (w n q : Pos) :
    (((g.setCellState w .activated).setCellState n .activated).cells q).state =
      if q = n then .activated
      else if q = w then .activated else (g.cells q).state := by
  rw [Grid.state_set, Grid.state_set]

/-- Bounds are unaffected by cell-state writes. -/
theorem Grid.inBounds_set (g : Grid) (p : Pos) (st : NodeState) (q : Pos) :
    (g.setCellState p st).inBounds q ↔ g.inBounds q := Iff.rfl

/-- Shape of the entries produced by `initWalls`. -/
theorem mem_initWalls {g : Grid} {s0 : Pos} {wn : Pos × Pos}
    (h : wn ∈ initWalls g s0) :
    ∃ d ∈ mazeDirs, wn.1 = (s0.1 + d.1 / 2, s0.2 + d.2 / 2) ∧
      wn.2 = (s0.1 + d.1, s0.2 + d.2) := by
  unfold initWalls at h
  rcases List.mem_filterMap.mp h with ⟨d, hd, hfm⟩
  refine ⟨d, hd, ?_⟩
  dsimp only at hfm
  split at hfm
  · obtain rfl := Option.some.inj hfm
    exact ⟨rfl, rfl⟩
  · cases hfm

/-- Shape of the entries produced by `nextWalls`. -/
theorem mem_nextWalls {g : Grid} {n : Pos} {wn : Pos × Pos}
    (h : wn ∈ nextWalls g n) :
    ∃ d ∈ mazeDirs, wn.1 = (n.1 + d.1 / 2, n.2 + d.2 / 2) ∧
      wn.2 = (n.1 + d.1, n.2 + d.2) := by
  unfold nextWalls at h
  rcases List.mem_filterMap.mp h with ⟨d, hd, hfm⟩
  refine ⟨d, hd, ?_⟩
  dsimp only at hfm
  split at hfm
  · obtain rfl := Option.some.inj hfm
    exact ⟨rfl, rfl⟩
  · cases hfm

/-- The wall-list invariant restricts along sublists. -/
theorem wallsOk_subset {s : Pos} {g : Grid} {walls l : List (Pos × Pos)}
    (h : WallsOk s g walls) (hsub : l ⊆ walls) : WallsOk s g l :=
  fun wn hm => h wn (hsub hm)

/-- The wall-list invariant is closed under append. -/
theorem wallsOk_append {s : Pos} {g : Grid} {l1 l2 : List (Pos × Pos)}
    (h1 : WallsOk s g l1) (h2 : WallsOk s g l2) : WallsOk s g (l1 ++ l2) :=
  fun wn hm => (List.mem_append.mp hm).elim (h1 wn) (h2 wn)

/-- The wall-list invariant transports along activation-monotone grid changes. -/
theorem wallsOk_mono {s : Pos} {g g' : Grid} {walls : List (Pos × Pos)}
    (hact : ∀ p, actAt g p → actAt g' p) (h : WallsOk s g walls) :
    WallsOk s g' walls := by
  intro wn hm
  obtain ⟨src, d, hd, hw, hn, hs, hr⟩ := h wn hm
  exact ⟨src, d, hd, hw, hn, hact _ hs, hr⟩

/-- The walls pushed after carving to `n` satisfy the wall-list invariant. -/
theorem wallsOk_nextWalls {s : Pos} {g1 : Grid} {n : Pos}
    (hact : actAt g1 n) (hroom : roomPar s n) :
    WallsOk s g1 (nextWalls g1 n) := by
  intro wn hm
  obtain ⟨d, hd, h1, h2⟩ := mem_nextWalls hm
  exact ⟨n, d, hd, h1, h2, hact, hroom⟩

/-- Pointwise description of the initial deactivate-everything fold. -/
theorem foldl_deact_state (l : List Pos) (g : Grid) (p : Pos) :
    ((l.foldl (fun h q => h.setCellState q .deactivated) g).cells p).state =
      if p ∈ l then .deactivated else (g.cells p).state := by
  induction l generalizing g with
  | nil => simp
  | cons a l ih =>
    rw [List.foldl_cons, ih]
    by_cases hp : p ∈ l
    · rw [if_pos hp, if_pos (List.mem_cons.mpr (Or.inr hp))]
    · rw [if_neg hp, Grid.state_set]
      by_cases ha : p = a
      · rw [if_pos ha, if_pos (List.mem_cons.mpr (Or.inl ha))]
      · rw [if_neg ha, if_neg (by simp [List.mem_cons, ha, hp])]

/-- The deactivate-everything fold keeps the grid's height. -/
theorem foldl_deact_height (l : List Pos) (g : Grid) :
    (l.foldl (fun h q => h.setCellState q .deactivated) g).height = g.height := by
  induction l generalizing g with
  | nil => rfl
  | cons a l ih => rw [List.foldl_cons, ih]; rfl

/-- The deactivate-everything fold keeps the grid's width. -/
theorem foldl_deact_width (l : List Pos) (g : Grid) :
    (l.foldl (fun h q => h.setCellState q .deactivated) g).width = g.width := by
  induction l generalizing g with
  | nil => rfl
  | cons a l ih => rw [List.foldl_cons, ih]; rfl

/-- Unfolding of one `mazeLoop` iteration on a nonempty wall list. -/
theorem mazeLoop_cons (choice : ℕ → ℕ) (fuel tick : ℕ) (g : Grid)
    (a : Pos × Pos) (l : List (Pos × Pos)) :
    mazeLoop choice (fuel + 1) tick g (a :: l) =
      (let idx := choice tick % (a :: l).length
       let wn := (a :: l).getD idx ((0, 0), (0, 0))
       let rest := (a :: l).eraseIdx idx
       if g.inBounds wn.2 then
         if (g.cells wn.2).state.is_deactivated then
           let g1 := (g.setCellState wn.1 .activated).setCellState wn.2 .activated
           mazeLoop choice fuel (tick + 1) g1 (rest ++ nextWalls g1 wn.2)
         else mazeLoop choice fuel (tick + 1) g rest
       else mazeLoop choice fuel (tick + 1) g rest) := rfl

/-- Geometric facts about one carve: the midpoint `w` and far cell `n` of a
wall entry built from the room `src` in direction `d`. -/
theorem maze_geom {s src w n : Pos} {d : ℤ × ℤ} (hd : d ∈ mazeDirs)
    (hw : w = (src.1 + d.1 / 2, src.2 + d.2 / 2))
    (hn : n = (src.1 + d.1, src.2 + d.2))
    (hroom : roomPar s src) :
    adjacent w n ∧ adjacent w src ∧ roomPar s n ∧ ¬roomPar s w ∧
    ¬oddOdd s w ∧ w ≠ n ∧ w ≠ src ∧ n ≠ src ∧
    (∀ q, adjacent w q → roomPar s q → q = src ∨ q = n) ∧
    (∀ q, adjacent w q → ¬oddOdd s q → roomPar s q) ∧
    (∀ q, adjacent n q → ¬roomPar s q) := by
  subst hw hn
  obtain ⟨s1, s2⟩ := s
  obtain ⟨a1, a2⟩ := src
  simp only [mazeDirs, List.mem_cons, List.not_mem_nil, or_false] at hd
  unfold roomPar at hroom
  dsimp only at hroom
  have hdiv : (d.1 = -2 ∧ d.2 = 0 ∧ d.1 / 2 = -1 ∧ d.2 / 2 = 0) ∨
      (d.1 = 2 ∧ d.2 = 0 ∧ d.1 / 2 = 1 ∧ d.2 / 2 = 0) ∨
      (d.1 = 0 ∧ d.2 = -2 ∧ d.1 / 2 = 0 ∧ d.2 / 2 = -1) ∨
      (d.1 = 0 ∧ d.2 = 2 ∧ d.1 / 2 = 0 ∧ d.2 / 2 = 1) := by
    rcases hd with rfl | rfl | rfl | rfl
    · exact Or.inl ⟨rfl, rfl, by decide, by decide⟩
    · exact Or.inr (Or.inl ⟨rfl, rfl, by decide, by decide⟩)
    · exact Or.inr (Or.inr (Or.inl ⟨rfl, rfl, by decide, by decide⟩))
    · exact Or.inr (Or.inr (Or.inr ⟨rfl, rfl, by decide, by decide⟩))
  clear hd
  refine ⟨?_, ?_, ?_, ?_, ?_, ?_, ?_, ?_, ?_, ?_, ?_⟩
  · rw [adjacent_mk]
    rcases hdiv with ⟨h1, h2, h3, h4⟩ | ⟨h1, h2, h3, h4⟩ | ⟨h1, h2, h3, h4⟩ |
      ⟨h1, h2, h3, h4⟩ <;> omega
  · rw [adjacent_mk]
    rcases hdiv with ⟨h1, h2, h3, h4⟩ | ⟨h1, h2, h3, h4⟩ | ⟨h1, h2, h3, h4⟩ |
      ⟨h1, h2, h3, h4⟩ <;> omega
  · unfold roomPar
    dsimp only
    rcases hdiv with ⟨h1, h2, h3, h4⟩ | ⟨h1, h2, h3, h4⟩ | ⟨h1, h2, h3, h4⟩ |
      ⟨h1, h2, h3, h4⟩ <;> omega
  · unfold roomPar
    dsimp only
    rcases hdiv with ⟨h1, h2, h3, h4⟩ | ⟨h1, h2, h3, h4⟩ | ⟨h1, h2, h3, h4⟩ |
      ⟨h1, h2, h3, h4⟩ <;> omega
  · unfold oddOdd
    dsimp only
    rcases hdiv with ⟨h1, h2, h3, h4⟩ | ⟨h1, h2, h3, h4⟩ | ⟨h1, h2, h3, h4⟩ |
      ⟨h1, h2, h3, h4⟩ <;> omega
  · intro h
    rw [Prod.mk.injEq] at h
    rcases hdiv with ⟨h1, h2, h3, h4⟩ | ⟨h1, h2, h3, h4⟩ | ⟨h1, h2, h3, h4⟩ |
      ⟨h1, h2, h3, h4⟩ <;> omega
  · intro h
    rw [Prod.mk.injEq] at h
    rcases hdiv with ⟨h1, h2, h3, h4⟩ | ⟨h1, h2, h3, h4⟩ | ⟨h1, h2, h3, h4⟩ |
      ⟨h1, h2, h3, h4⟩ <;> omega
  · intro h
    rw [Prod.mk.injEq] at h
    rcases hdiv with ⟨h1, h2, h3, h4⟩ | ⟨h1, h2, h3, h4⟩ | ⟨h1, h2, h3, h4⟩ |
      ⟨h1, h2, h3, h4⟩ <;> omega
  · rintro ⟨q1, q2⟩ hadj hq
    rw [adjacent_mk] at hadj
    unfold roomPar at hq
    dsimp only at hq
    simp only [Prod.mk.injEq]
    rcases hdiv with ⟨h1, h2, h3, h4⟩ | ⟨h1, h2, h3, h4⟩ | ⟨h1, h2, h3, h4⟩ |
      ⟨h1, h2, h3, h4⟩ <;> omega
  · rintro ⟨q1, q2⟩ hadj hq
    rw [adjacent_mk] at hadj
    unfold oddOdd at hq
    dsimp only at hq
    unfold roomPar
    dsimp only
    rcases hdiv with ⟨h1, h2, h3, h4⟩ | ⟨h1, h2, h3, h4⟩ | ⟨h1, h2, h3, h4⟩ |
      ⟨h1, h2, h3, h4⟩ <;> omega
  · rintro ⟨q1, q2⟩ hadj
    rw [adjacent_mk] at hadj
    unfold roomPar
    dsimp only
    rcases hdiv with ⟨h1, h2, h3, h4⟩ | ⟨h1, h2, h3, h4⟩ | ⟨h1, h2, h3, h4⟩ |
      ⟨h1, h2, h3, h4⟩ <;> omega

/-- The carve midpoint lies componentwise between its room and far cell. -/
theorem maze_between {src w n : Pos} {d : ℤ × ℤ} (hd : d ∈ mazeDirs)
    (hw : w = (src.1 + d.1 / 2, src.2 + d.2 / 2))
    (hn : n = (src.1 + d.1, src.2 + d.2)) :
    min src.1 n.1 ≤ w.1 ∧ w.1 ≤ max src.1 n.1 ∧
    min src.2 n.2 ≤ w.2 ∧ w.2 ≤ max src.2 n.2 := by
  subst hw hn
  obtain ⟨a1, a2⟩ := src
  simp only [mazeDirs, List.mem_cons, List.not_mem_nil, or_false] at hd
  rcases hd with rfl | rfl | rfl | rfl <;> dsimp only <;> omega

/-- Carving a wall preserves the grid invariant. -/
theorem carve_gridInv {s : Pos} {g : Grid} {src w n : Pos} {d : ℤ × ℤ}
    (hd : d ∈ mazeDirs)
    (hw : w = (src.1 + d.1 / 2, src.2 + d.2 / 2))
    (hn : n = (src.1 + d.1, src.2 + d.2))
    (hsrc : actAt g src) (hroom : roomPar s src)
    (hinv : GridInv s g)
    (hn_in : g.inBounds n) (hn_de : (g.cells n).state = .deactivated) :
    GridInv s ((g.setCellState w .activated).setCellState n .activated) := by
  obtain ⟨hadj_wn, hadj_ws, hn_room, hw_nroom, hw_nodd, hw_ne_n, hw_ne_src,
    hn_ne_src, hroomnbr_w, hwnbr, hnnbr⟩ := maze_geom hd hw hn hroom
  obtain ⟨par, rank, hseed, hP2, hA1, hpnone, hJ3, hJ4⟩ := hinv
  have hn_nact : ¬actAt g n := fun h => by
    rw [h.2] at hn_de; cases hn_de
  have hw_nact : ¬actAt g w := fun h =>
    hn_nact (hA1 w n h hw_nroom hadj_wn hn_room)
  have hold_ne_n : ∀ p, actAt g p → p ≠ n := fun p hp he => hn_nact (he ▸ hp)
  have hold_ne_w : ∀ p, actAt g p → p ≠ w := fun p hp he => hw_nact (he ▸ hp)
  have hbet := maze_between hd hw hn
  have hw_in : g.inBounds w := by
    obtain ⟨hs1, hs2, hs3, hs4⟩ := hsrc.1
    obtain ⟨hb1, hb2, hb3, hb4⟩ := hn_in
    exact ⟨by omega, by omega, by omega, by omega⟩
  have hact_mono : ∀ p, actAt g p →
      actAt ((g.setCellState w .activated).setCellState n .activated) p := by
    intro p hp
    refine ⟨hp.1, ?_⟩
    rw [carve_state, if_neg (hold_ne_n p hp), if_neg (hold_ne_w p hp)]
    exact hp.2
  have hactw : actAt ((g.setCellState w .activated).setCellState n .activated) w :=
    ⟨hw_in, by rw [carve_state, if_neg hw_ne_n, if_pos rfl]⟩
  have hactn : actAt ((g.setCellState w .activated).setCellState n .activated) n :=
    ⟨hn_in, by rw [carve_state, if_pos rfl]⟩
  have hact_iff : ∀ p,
      actAt ((g.setCellState w .activated).setCellState n .activated) p →
      p = n ∨ p = w ∨ actAt g p := by
    intro p hp
    by_cases h1 : p = n
    · exact Or.inl h1
    by_cases h2 : p = w
    · exact Or.inr (Or.inl h2)
    refine Or.inr (Or.inr ⟨hp.1, ?_⟩)
    have h3 := hp.2
    rw [carve_state, if_neg h1, if_neg h2] at h3
    exact h3
  refine ⟨Function.update (Function.update par w (some src)) n (some w),
    Function.update (Function.update rank w (rank src + 1)) n (rank src + 2),
    hact_mono s hseed, ?_, ?_, ?_, ?_, ?_⟩
  · intro p hp
    rcases hact_iff p hp with rfl | rfl | hold
    · unfold oddOdd
      unfold roomPar at hn_room
      omega
    · exact hw_nodd
    · exact hP2 p hold
  · intro p q hp hpn hadj hq
    rcases hact_iff p hp with rfl | rfl | hold
    · exact absurd hn_room hpn
    · rcases hroomnbr_w q hadj hq with rfl | rfl
      · exact hact_mono _ hsrc
      · exact hactn
    · exact hact_mono q (hA1 p q hold hpn hadj hq)
  · rw [Function.update_noteq (hold_ne_n s hseed),
      Function.update_noteq (hold_ne_w s hseed)]
    exact hpnone
  · intro p hp hps
    rcases hact_iff p hp with rfl | rfl | hold
    · refine ⟨w, ?_, hactw, adjacent_symm hadj_wn, ?_⟩
      · rw [Function.update_same]
      · rw [Function.update_same, Function.update_noteq hw_ne_n,
          Function.update_same]
        omega
    · refine ⟨src, ?_, hact_mono src hsrc, hadj_ws, ?_⟩
      · rw [Function.update_noteq hw_ne_n, Function.update_same]
      · rw [Function.update_noteq (Ne.symm hn_ne_src)]
        rw [Function.update_noteq (Ne.symm hw_ne_src)]
        rw [Function.update_noteq hw_ne_n, Function.update_same]
        omega
    · obtain ⟨q, hq1, hq2, hq3, hq4⟩ := hJ3 p hold hps
      refine ⟨q, ?_, hact_mono q hq2, hq3, ?_⟩
      · rw [Function.update_noteq (hold_ne_n p hold),
          Function.update_noteq (hold_ne_w p hold)]
        exact hq1
      · rw [Function.update_noteq (hold_ne_n q hq2),
          Function.update_noteq (hold_ne_w q hq2),
          Function.update_noteq (hold_ne_n p hold),
          Function.update_noteq (hold_ne_w p hold)]
        exact hq4
  · intro p q hp hq hadj
    rcases hact_iff p hp with rfl | rfl | holdp <;>
      rcases hact_iff q hq with rfl | rfl | holdq
    · exact absurd hadj (adjacent_irrefl _)
    · left
      rw [Function.update_same]
    · exact absurd (hA1 q _ holdq (hnnbr q hadj) (adjacent_symm hadj) hn_room)
        hn_nact
    · right
      rw [Function.update_same]
    · exact absurd hadj (adjacent_irrefl _)
    · have hq_room : roomPar s q := hwnbr q hadj (hP2 q holdq)
      rcases hroomnbr_w q hadj hq_room with rfl | rfl
      · left
        rw [Function.update_noteq hw_ne_n, Function.update_same]
      · exact absurd holdq hn_nact
    · exact absurd
        (hA1 p _ holdp (hnnbr p (adjacent_symm hadj)) hadj hn_room) hn_nact
    · have hp_room : roomPar s p := hwnbr p (adjacent_symm hadj) (hP2 p holdp)
      rcases hroomnbr_w p (adjacent_symm hadj) hp_room with rfl | rfl
      · right
        rw [Function.update_noteq hw_ne_n, Function.update_same]
      · exact absurd holdp hn_nact
    · rcases hJ4 p q holdp holdq hadj with h | h
      · left
        rw [Function.update_noteq (hold_ne_n p holdp),
          Function.update_noteq (hold_ne_w p holdp)]
        exact h
      · right
        rw [Function.update_noteq (hold_ne_n q holdq),
          Function.update_noteq (hold_ne_w q holdq)]
        exact h

/-- Activating a cell never deactivates another. -/
theorem actAt_set_act_mono (g : Grid) (x p : Pos) (h : actAt g p) :
    actAt (g.setCellState x .activated) p := by
  refine ⟨h.1, ?_⟩
  rw [Grid.state_set]
  by_cases hx : p = x
  · rw [if_pos hx]
  · rw [if_neg hx]
    exact h.2

/-- The maze loop preserves the grid invariant. -/
theorem mazeLoop_inv (choice : ℕ → ℕ) (s : Pos) :
    ∀ (fuel tick : ℕ) (g : Grid) (walls : List (Pos × Pos)),
      GridInv s g → WallsOk s g walls →
      GridInv s (mazeLoop choice fuel tick g walls) := by
  intro fuel
  induction fuel with
  | zero =>
    intro tick g walls hg hw
    exact hg
  | succ fuel ih =>
    intro tick g walls hg hw
    rcases walls with _ | ⟨a, l⟩
    · exact hg
    · rw [mazeLoop_cons]
      dsimp only
      have hlt : choice tick % (a :: l).length < (a :: l).length :=
        Nat.mod_lt _ (by simp)
      have hget : (a :: l).getD (choice tick % (a :: l).length) ((0, 0), (0, 0)) ∈
          (a :: l) := by
        rw [List.getD_eq_getElem _ _ hlt]
        exact List.getElem_mem hlt
      obtain ⟨src, d, hd, hww, hnn, hsrc, hroom⟩ := hw _ hget
      have hrest : WallsOk s g
          ((a :: l).eraseIdx (choice tick % (a :: l).length)) :=
        wallsOk_subset hw (List.eraseIdx_sublist _ _).subset
      by_cases hin : g.inBounds
          ((a :: l).getD (choice tick % (a :: l).length) ((0, 0), (0, 0))).2
      · rw [if_pos hin]
        by_cases hde : ((g.cells ((a :: l).getD (choice tick % (a :: l).length)
            ((0, 0), (0, 0))).2).state).is_deactivated = true
        · rw [if_pos hde]
          have hg1 := carve_gridInv hd hww hnn hsrc hroom hg hin
            (is_deactivated_iff.mp hde)
          have hmono : ∀ p, actAt g p →
              actAt ((g.setCellState
                ((a :: l).getD (choice tick % (a :: l).length)
                  ((0, 0), (0, 0))).1 .activated).setCellState
                ((a :: l).getD (choice tick % (a :: l).length)
                  ((0, 0), (0, 0))).2 .activated) p :=
            fun p hp => actAt_set_act_mono _ _ _ (actAt_set_act_mono _ _ _ hp)
          have hactn : actAt ((g.setCellState
              ((a :: l).getD (choice tick % (a :: l).length)
                ((0, 0), (0, 0))).1 .activated).setCellState
              ((a :: l).getD (choice tick % (a :: l).length)
                ((0, 0), (0, 0))).2 .activated)
              ((a :: l).getD (choice tick % (a :: l).length)
                ((0, 0), (0, 0))).2 :=
            ⟨hin, by rw [carve_state, if_pos rfl]⟩
          apply ih
          · exact hg1
          · apply wallsOk_append
            · exact wallsOk_mono hmono hrest
            · exact wallsOk_nextWalls hactn (maze_geom hd hww hnn hroom).2.2.1
        · rw [if_neg hde]
          exact ih _ g _ hg hrest
      · rw [if_neg hin]
        exact ih _ g _ hg hrest

/-- Cell-state writes keep the grid's height. -/
theorem Grid.height_set (g : Grid) (p : Pos) (st : NodeState) :
    (g.setCellState p st).height = g.height := rfl

/-- Cell-state writes keep the grid's width. -/
theorem Grid.width_set (g : Grid) (p : Pos) (st : NodeState) :
    (g.setCellState p st).width = g.width := rfl

/-- The maze's initial state (everything deactivated, then the seed activated)
satisfies the grid and wall-list invariants. -/
theorem maze_init (g0 : Grid) (sd : Pos) (hin : g0.inBounds sd) :
    GridInv sd ((g0.positions.foldl
      (fun g p => g.setCellState p .deactivated) g0).setCellState sd .activated) ∧
    WallsOk sd ((g0.positions.foldl
      (fun g p => g.setCellState p .deactivated) g0).setCellState sd .activated)
      (initWalls ((g0.positions.foldl
        (fun g p => g.setCellState p .deactivated) g0).setCellState sd .activated)
        sd) := by
  have hdim : ∀ p : Pos,
      ((g0.positions.foldl (fun g q => g.setCellState q .deactivated)
        g0).setCellState sd .activated).inBounds p ↔ g0.inBounds p := by
    intro p
    unfold Grid.inBounds
    rw [Grid.height_set, Grid.width_set, foldl_deact_height, foldl_deact_width]
  have hstate : ∀ p : Pos,
      ((((g0.positions.foldl (fun g q => g.setCellState q .deactivated)
        g0).setCellState sd .activated)).cells p).state =
      if p = sd then .activated
      else if p ∈ g0.positions then .deactivated else (g0.cells p).state := by
    intro p
    rw [Grid.state_set]
    by_cases hp : p = sd
    · rw [if_pos hp, if_pos hp]
    · rw [if_neg hp, if_neg hp, foldl_deact_state]
  have hact_iff : ∀ p,
      actAt ((g0.positions.foldl (fun g q => g.setCellState q .deactivated)
        g0).setCellState sd .activated) p ↔ p = sd := by
    intro p
    constructor
    · rintro ⟨hpin, hpact⟩
      by_contra hne
      rw [hstate p, if_neg hne,
        if_pos (Grid.mem_positions.mpr ((hdim p).mp hpin))] at hpact
      cases hpact
    · rintro rfl
      exact ⟨(hdim _).mpr hin, by rw [hstate, if_pos rfl]⟩
  constructor
  · refine ⟨fun _ => none, fun _ => 0, (hact_iff sd).mpr rfl, ?_, ?_, rfl,
      ?_, ?_⟩
    · intro p hp ho
      obtain heq := (hact_iff p).mp hp
      subst heq
      unfold oddOdd at ho
      omega
    · intro p q hp hpn hadj hq
      obtain heq := (hact_iff p).mp hp
      subst heq
      exact absurd (by unfold roomPar; omega) hpn
    · intro p hp hne
      exact absurd ((hact_iff p).mp hp) hne
    · intro p q hp hq hadj
      obtain heq := (hact_iff p).mp hp
      obtain heq2 := (hact_iff q).mp hq
      subst heq
      subst heq2
      exact absurd hadj (adjacent_irrefl _)
  · intro wn hm
    obtain ⟨d, hd, h1, h2⟩ := mem_initWalls hm
    exact ⟨sd, d, hd, h1, h2, (hact_iff sd).mpr rfl, by unfold roomPar; omega⟩

/-- The grid invariant makes every activated cell reachable from the seed. -/
theorem gridInv_reach {s : Pos} {g : Grid} (h : GridInv s g) :
    ∀ p, actAt g p → ActReach g s p := by
  obtain ⟨par, rank, hseed, hP2, hA1, hpnone, hJ3, hJ4⟩ := h
  have key : ∀ (k : ℕ) (p : Pos), rank p < k → actAt g p → ActReach g s p := by
    intro k
    induction k with
    | zero =>
      intro p hk hp
      exact absurd hk (Nat.not_lt_zero _)
    | succ k ih =>
      intro p hk hp
      by_cases hps : p = s
      · rw [hps]
        exact ActReach.refl hseed
      · obtain ⟨q, hq1, hq2, hq3, hq4⟩ := hJ3 p hp hps
        exact ActReach.tail (ih q (by omega) hq2) (adjacent_symm hq3) hp
  exact fun p hp => key (rank p + 1) p (Nat.lt_succ_self _) hp

/-- The grid invariant rules out cycles among activated cells. -/
theorem gridInv_no_cycle {s : Pos} {g : Grid} (h : GridInv s g) :
    ∀ c, ¬IsCycle g c := by
  intro c
  rintro ⟨hlen, hnodup, hact, hadj⟩
  obtain ⟨par, rank, hseed, hP2, hA1, hpnone, hJ3, hJ4⟩ := h
  have hLpos : 0 < c.length := by omega
  obtain ⟨i0, hi0mem, hi0max⟩ := Finset.exists_max_image (Finset.range c.length)
    (fun i => rank (c.getD i (0, 0))) ⟨0, Finset.mem_range.mpr hLpos⟩
  have hi0 : i0 < c.length := Finset.mem_range.mp hi0mem
  have hi1ex : ∃ i1, i1 < c.length ∧ (i1 + 1) % c.length = i0 ∧
      (i0 + 1) % c.length ≠ i1 := by
    by_cases h0 : i0 = 0
    · refine ⟨c.length - 1, by omega, ?_, ?_⟩
      · rw [Nat.sub_add_cancel (by omega), Nat.mod_self, h0]
      · rw [Nat.mod_eq_of_lt (by omega : i0 + 1 < c.length)]
        omega
    · refine ⟨i0 - 1, by omega, ?_, ?_⟩
      · rw [Nat.sub_add_cancel (by omega), Nat.mod_eq_of_lt hi0]
      · by_cases hc2 : i0 + 1 < c.length
        · rw [Nat.mod_eq_of_lt hc2]
          omega
        · have h3 : i0 + 1 = c.length := by omega
          rw [h3, Nat.mod_self]
          omega
  obtain ⟨i1, hi1lt, hi1succ, hi1ne2⟩ := hi1ex
  have hsucc_lt : (i0 + 1) % c.length < c.length := Nat.mod_lt _ hLpos
  have hget : ∀ i, i < c.length → c.getD i (0, 0) ∈ c := by
    intro i hi
    rw [List.getD_eq_getElem _ _ hi]
    exact List.getElem_mem hi
  have hne_elem : ∀ i j, i < c.length → j < c.length → i ≠ j →
      c.getD i (0, 0) ≠ c.getD j (0, 0) := by
    intro i j hi hj hij heq
    rw [List.getD_eq_getElem _ _ hi, List.getD_eq_getElem _ _ hj] at heq
    have heq2 : c.get ⟨i, hi⟩ = c.get ⟨j, hj⟩ := by
      simp only [List.get_eq_getElem]
      exact heq
    have hfin := List.nodup_iff_injective_get.mp hnodup heq2
    exact hij (congrArg Fin.val hfin)
  have hmax : ∀ i, i < c.length →
      rank (c.getD i (0, 0)) ≤ rank (c.getD i0 (0, 0)) :=
    fun i hi => hi0max i (Finset.mem_range.mpr hi)
  have hadj1 : adjacent (c.getD i0 (0, 0))
      (c.getD ((i0 + 1) % c.length) (0, 0)) := hadj i0 hi0
  have hadj2 : adjacent (c.getD i1 (0, 0)) (c.getD i0 (0, 0)) := by
    have h2 := hadj i1 hi1lt
    rw [hi1succ] at h2
    exact h2
  have hact0 := hact _ (hget i0 hi0)
  have hact1 := hact _ (hget _ hsucc_lt)
  have hact2 := hact _ (hget i1 hi1lt)
  have hrankdec : ∀ x y, actAt g x → par x = some y → rank y < rank x := by
    intro x y hx hxy
    have hxs : x ≠ s := by
      intro he
      rw [he, hpnone] at hxy
      cases hxy
    obtain ⟨q, hq1, hq2, hq3, hq4⟩ := hJ3 x hx hxs
    rw [hq1] at hxy
    cases Option.some.inj hxy
    exact hq4
  have hpar0 : par (c.getD i0 (0, 0)) =
      some (c.getD ((i0 + 1) % c.length) (0, 0)) := by
    rcases hJ4 _ _ hact0 hact1 hadj1 with h | h
    · exact h
    · have hd1 := hrankdec _ _ hact1 h
      have hd2 := hmax _ hsucc_lt
      omega
  rcases hJ4 _ _ hact2 hact0 hadj2 with h | h
  · have hd1 := hrankdec _ _ hact2 h
    have hd2 := hmax _ hi1lt
    omega
  · rw [hpar0] at h
    exact hne_elem _ _ hsucc_lt hi1lt hi1ne2 (Option.some.inj h)

/-- C4: for every grid, every even in-bounds seed, and every sequence of
random choices, after `generate_maze_prim` returns every ACTIVATED cell is
reachable from the seed by 4-adjacent steps through ACTIVATED cells, and the
subgraph induced by the ACTIVATED cells has no cycle (it is a tree rooted at
the seed). -/
theorem C4_maze_spanning_tree (g0 : Grid) (r0 c0 : ℤ) (choice : ℕ → ℕ)
    (hr1 : 0 ≤ r0) (hr2 : r0 < (g0.height : ℤ)) (hr3 : r0 % 2 = 0)
    (hc1 : 0 ≤ c0) (hc2 : c0 < (g0.width : ℤ)) (hc3 : c0 % 2 = 0) :
    (∀ p, actAt (generate_maze_prim g0 r0 c0 choice) p →
      ActReach (generate_maze_prim g0 r0 c0 choice) (r0, c0) p) ∧
    ∀ c, ¬IsCycle (generate_maze_prim g0 r0 c0 choice) c := by
  have hinit := maze_init g0 (r0, c0) ⟨hr1, hr2, hc1, hc2⟩
  have hinv : GridInv (r0, c0) (generate_maze_prim g0 r0 c0 choice) := by
    unfold generate_maze_prim
    exact mazeLoop_inv choice (r0, c0) _ 0 _ _ hinit.1 hinit.2
  exact ⟨gridInv_reach hinv, gridInv_no_cycle hinv⟩

/-- Witness instantiating `C4_maze_spanning_tree` on the concrete 5-by-5 grid
with seed `(0, 0)` and the all-zero choice stream. -/
theorem C4_maze_spanning_tree_witness :
    (∀ p, actAt (generate_maze_prim g5 0 0 (fun _ => 0)) p →
      ActReach (generate_maze_prim g5 0 0 (fun _ => 0)) (0, 0) p) ∧
    ∀ c, ¬IsCycle (generate_maze_prim g5 0 0 (fun _ => 0)) c :=
  C4_maze_spanning_tree g5 0 0 (fun _ => 0) (by decide) (by decide) (by decide)
    (by decide) (by decide) (by decide)
